import Mathlib

/-!
Verification development for the LiteBuild incremental build orchestrator.

The Python sources (`LiteBuild/build_engine.py`, `LiteBuild/command_generator.py`)
are shallowly embedded below.  Python runtime values that flow through the build
engine (YAML scalars, JSON state entries) are modelled by the inductive type
`PVal`; machine floats (file modification times) are modelled by `ℚ`; fallible
Python code (functions that may raise) returns `Except`.  External collaborators
(the `networkx` graph library, the process pool, the filesystem and the SHA-256
primitive) are modelled as explicit parameters: a topological order plus a
descendants function for the graph, an outcome oracle for subprocesses, a
`String → Option ℚ` mtime map for the filesystem, and an abstract digest
function for `hashlib.sha256(...).hexdigest()`.
-/

namespace LiteBuild

/-- Single opening brace as text (used when building unbalanced brace strings). -/
def obr : String := "\x7b"

/-- Single closing brace as text. -/
def cbr : String := "\x7d"

/-! ## Python values

`PVal` models the Python/YAML/JSON values handled by the build engine:
`None`, `bool`, `int`, `float` (modelled by `ℚ`), `str`, `list`, `dict`.
Python `dict`s are modelled as insertion-ordered association lists; real
Python dicts never contain duplicate keys, which theorems assume via
explicit `Nodup` hypotheses where it matters. -/

inductive PVal where
  | none : PVal
  | bool (b : Bool) : PVal
  | int (n : Int) : PVal
  | float (q : ℚ) : PVal
  | str (s : String) : PVal
  | list (xs : List PVal) : PVal
  | dict (kvs : List (String × PVal)) : PVal

mutual

/-- Boolean equality on `PVal`. -/
def PVal.beq : PVal → PVal → Bool
  | PVal.none, PVal.none => true
  | PVal.bool a, PVal.bool b => a == b
  | PVal.int a, PVal.int b => a == b
  | PVal.float a, PVal.float b => a == b
  | PVal.str a, PVal.str b => a == b
  | PVal.list a, PVal.list b => PVal.beqList a b
  | PVal.dict a, PVal.dict b => PVal.beqObj a b
  | _, _ => false
termination_by structural a => a

/-- Boolean equality on lists of `PVal`. -/
def PVal.beqList : List PVal → List PVal → Bool
  | [], [] => true
  | a :: as', b :: bs' => PVal.beq a b && PVal.beqList as' bs'
  | _, _ => false
termination_by structural a => a

/-- Boolean equality on dict entry lists. -/
def PVal.beqObj : List (String × PVal) → List (String × PVal) → Bool
  | [], [] => true
  | (ka, va) :: as', (kb, vb) :: bs' => ka == kb && PVal.beq va vb && PVal.beqObj as' bs'
  | _, _ => false
termination_by structural a => a

end

mutual

theorem PVal.beq_eq : ∀ a b : PVal, PVal.beq a b = true → a = b
  | PVal.none, PVal.none, _ => rfl
  | PVal.bool _, PVal.bool _, h => by
    simp only [PVal.beq, beq_iff_eq] at h; rw [h]
  | PVal.int _, PVal.int _, h => by
    simp only [PVal.beq, beq_iff_eq] at h; rw [h]
  | PVal.float _, PVal.float _, h => by
    simp only [PVal.beq, beq_iff_eq] at h; rw [h]
  | PVal.str _, PVal.str _, h => by
    simp only [PVal.beq, beq_iff_eq] at h; rw [h]
  | PVal.list a, PVal.list b, h => by
    rw [PVal.beqList_eq a b h]
  | PVal.dict a, PVal.dict b, h => by
    rw [PVal.beqObj_eq a b h]

theorem PVal.beqList_eq : ∀ a b : List PVal, PVal.beqList a b = true → a = b
  | [], [], _ => rfl
  | a :: as', b :: bs', h => by
    simp only [PVal.beqList, Bool.and_eq_true] at h
    rw [PVal.beq_eq a b h.1, PVal.beqList_eq as' bs' h.2]

theorem PVal.beqObj_eq : ∀ a b : List (String × PVal), PVal.beqObj a b = true → a = b
  | [], [], _ => rfl
  | (ka, va) :: as', (kb, vb) :: bs', h => by
    simp only [PVal.beqObj, Bool.and_eq_true, beq_iff_eq] at h
    rw [h.1.1, PVal.beq_eq va vb h.1.2, PVal.beqObj_eq as' bs' h.2]

end

mutual

theorem PVal.beq_refl : ∀ a : PVal, PVal.beq a a = true
  | PVal.none => rfl
  | PVal.bool _ => by simp [PVal.beq]
  | PVal.int _ => by simp [PVal.beq]
  | PVal.float _ => by simp [PVal.beq]
  | PVal.str _ => by simp [PVal.beq]
  | PVal.list a => by simp [PVal.beq, PVal.beqList_refl a]
  | PVal.dict a => by simp [PVal.beq, PVal.beqObj_refl a]

theorem PVal.beqList_refl : ∀ a : List PVal, PVal.beqList a a = true
  | [] => rfl
  | a :: as' => by simp [PVal.beqList, PVal.beq_refl a, PVal.beqList_refl as']

theorem PVal.beqObj_refl : ∀ a : List (String × PVal), PVal.beqObj a a = true
  | [] => rfl
  | (k, v) :: as' => by simp [PVal.beqObj, PVal.beq_refl v, PVal.beqObj_refl as']

end

instance : DecidableEq PVal := fun a b =>
  if h : PVal.beq a b = true then isTrue (PVal.beq_eq a b h)
  else isFalse (fun he => h (he ▸ PVal.beq_refl a))

instance {ε α : Type} [DecidableEq ε] [DecidableEq α] : DecidableEq (Except ε α) := fun a b =>
  match a, b with
  | Except.ok x, Except.ok y =>
    match decEq x y with
    | isTrue h => isTrue (h ▸ rfl)
    | isFalse h => isFalse (fun he => h (Except.ok.inj he))
  | Except.error x, Except.error y =>
    match decEq x y with
    | isTrue h => isTrue (h ▸ rfl)
    | isFalse h => isFalse (fun he => h (Except.error.inj he))
  | Except.ok _, Except.error _ => isFalse (fun he => Except.noConfusion he)
  | Except.error _, Except.ok _ => isFalse (fun he => Except.noConfusion he)

/-- First-match association-list lookup, modelling Python `dict[k]` / `dict.get(k)`
(keys are unique in real dicts, so first match equals the dict entry). -/
def assocLookup {α : Type} (l : List (String × α)) (k : String) : Option α :=
  match l.find? (fun p => p.1 == k) with
  | some p => some p.2
  | Option.none => Option.none

/-- Python truthiness (`if not x`) for the modelled values. -/
def pyFalsy : PVal → Bool
  | PVal.none => true
  | PVal.bool b => !b
  | PVal.int n => n == 0
  | PVal.float q => q == 0
  | PVal.str s => s == ""
  | PVal.list xs => xs.isEmpty
  | PVal.dict kvs => kvs.isEmpty

/-! ## Rendering Python values as text

`pyStr` models Python `str(value)` and `pyRepr` models `repr(value)`;
`str` of a list/dict falls back to `repr` of the elements, exactly as in
CPython.  `floatRepr` models `repr` of a float for values with an exact
decimal form (every mtime literal used in this development has one). -/

/-- Decimal rendering of a nonnegative rational whose denominator divides `10^k`:
digits of `n / 10^k` with a decimal point, at least one digit on each side. -/
def decimalOfScaled (n : Nat) (k : Nat) : String :=
  if k == 0 then toString n ++ ".0"
  else
    let s := toString n
    let s := if s.length ≤ k then String.mk (List.replicate (k + 1 - s.length) '0') ++ s else s
    let intPart := s.take (s.length - k)
    let fracPart := s.drop (s.length - k)
    intPart ++ "." ++ fracPart

/-- Smallest `k ≤ bound` with `q * 10^k` integral, if any. -/
def decScale (q : ℚ) : Nat → Option Nat
  | 0 => if (q * (10 : ℚ) ^ (0 : Nat)).den == 1 then some 0 else Option.none
  | n + 1 =>
    match decScale q n with
    | some k => some k
    | Option.none => if (q * (10 : ℚ) ^ (n + 1)).den == 1 then some (n + 1) else Option.none

/-- Model of CPython float `repr` restricted to exactly-decimal rationals
(all concrete floats appearing in this development); other rationals get a
fraction-shaped fallback never produced by the modelled programs. -/
def floatRepr (q : ℚ) : String :=
  let sign := if q < 0 then "-" else ""
  let a := |q|
  match decScale a 17 with
  | some k => sign ++ decimalOfScaled ((a * (10 : ℚ) ^ k).num.toNat) k
  | Option.none => sign ++ toString a.num.toNat ++ "/" ++ toString a.den

/-- Escaping used inside Python single-quoted `repr` of a string. -/
def pyStrEscape (quote : Char) (s : String) : String :=
  String.join (s.data.map fun c =>
    if c = '\\' then "\\\\"
    else if c = quote then "\\" ++ String.mk [quote]
    else if c = '\n' then "\\n"
    else if c = '\r' then "\\r"
    else if c = '\t' then "\\t"
    else String.mk [c])

/-- Python `repr` of a string value (single quotes, switching to double
quotes when the text contains a single quote and no double quote). -/
def strRepr (s : String) : String :=
  if s.data.contains '\'' && !(s.data.contains '"')
  then "\"" ++ pyStrEscape '"' s ++ "\""
  else "'" ++ pyStrEscape '\'' s ++ "'"

mutual

/-- Model of Python `repr(value)`. -/
def pyRepr : PVal → String
  | PVal.str s => strRepr s
  | PVal.none => "None"
  | PVal.bool b => if b then "True" else "False"
  | PVal.int n => toString n
  | PVal.float q => floatRepr q
  | PVal.list xs => "[" ++ ", ".intercalate (pyReprList xs) ++ "]"
  | PVal.dict kvs => obr ++ ", ".intercalate (pyReprObj kvs) ++ cbr
termination_by structural v => v

/-- `repr` of each element of a list. -/
def pyReprList : List PVal → List String
  | [] => []
  | v :: t => pyRepr v :: pyReprList t
termination_by structural l => l

/-- `repr(k): repr(v)` of each entry of a dict. -/
def pyReprObj : List (String × PVal) → List String
  | [] => []
  | (k, v) :: t => (strRepr k ++ ": " ++ pyRepr v) :: pyReprObj t
termination_by structural l => l

end

/-- Model of Python `str(value)`. -/
def pyStr : PVal → String
  | PVal.none => "None"
  | PVal.bool b => if b then "True" else "False"
  | PVal.int n => toString n
  | PVal.float q => floatRepr q
  | PVal.str s => s
  | PVal.list xs => "[" ++ ", ".intercalate (pyReprList xs) ++ "]"
  | PVal.dict kvs => obr ++ ", ".intercalate (pyReprObj kvs) ++ cbr

/-! ## Canonical JSON serialization (`json.dumps(data, sort_keys=True)`)

Used by `CommandGenerator._get_hash`.  Default separators `", "` / `": "`;
`ensure_ascii` escapes characters outside printable ASCII as `\uXXXX`
(surrogate pairs above the BMP). -/

/-- Hex digit characters. -/
def hexDigit (n : Nat) : Char :=
  if n < 10 then Char.ofNat ('0'.toNat + n) else Char.ofNat ('a'.toNat + n - 10)

/-- Four-digit lowercase hex rendering of `n < 0x10000`. -/
def hex4 (n : Nat) : String :=
  String.mk [hexDigit ((n / 4096) % 16), hexDigit ((n / 256) % 16),
             hexDigit ((n / 16) % 16), hexDigit (n % 16)]

/-- JSON escaping of one character (`ensure_ascii=True`). -/
def jsonEscapeChar (c : Char) : String :=
  if c = '"' then "\\\""
  else if c = '\\' then "\\\\"
  else if c = '\n' then "\\n"
  else if c = '\r' then "\\r"
  else if c = '\t' then "\\t"
  else if c.toNat = 8 then "\\b"
  else if c.toNat = 12 then "\\f"
  else if c.toNat < 0x20 then "\\u" ++ hex4 c.toNat
  else if c.toNat < 0x7f then String.mk [c]
  else if c.toNat < 0x10000 then "\\u" ++ hex4 c.toNat
  else
    let v := c.toNat - 0x10000
    "\\u" ++ hex4 (0xd800 + v / 0x400) ++ "\\u" ++ hex4 (0xdc00 + v % 0x400)

/-- JSON string literal for `s`. -/
def jsonQuote (s : String) : String :=
  "\"" ++ String.join (s.data.map jsonEscapeChar) ++ "\""

/-- Code-point lexicographic comparison of character lists: the order Python
uses to compare `str` values (and the order of Lean's `String`). -/
def lexLeb : List Char → List Char → Bool
  | [], _ => true
  | _ :: _, [] => false
  | a :: as', b :: bs' =>
    if a.toNat < b.toNat then true
    else if b.toNat < a.toNat then false
    else lexLeb as' bs'

/-- Boolean string comparison, kernel-computable. -/
def strLeb (a b : String) : Bool := lexLeb a.data b.data

/-- The propositional form of `strLeb`. -/
def strLe (a b : String) : Prop := strLeb a b = true

instance (a b : String) : Decidable (strLe a b) := by
  unfold strLe; infer_instance

theorem lexLeb_total (a b : List Char) : lexLeb a b = true ∨ lexLeb b a = true := by
  induction a generalizing b with
  | nil => left; rfl
  | cons x as' ih =>
    cases b with
    | nil => right; rfl
    | cons y bs' =>
      rcases Nat.lt_trichotomy x.toNat y.toNat with h | h | h
      · left; simp [lexLeb, h]
      · have hnn : ¬ x.toNat < y.toNat := by omega
        have hnn' : ¬ y.toNat < x.toNat := by omega
        rcases ih bs' with hc | hc
        · left; simp [lexLeb, hnn, hnn', hc]
        · right; simp [lexLeb, hnn, hnn', hc]
      · right; simp [lexLeb, h]

theorem lexLeb_antisymm : ∀ {a b : List Char},
    lexLeb a b = true → lexLeb b a = true → a = b := by
  intro a
  induction a with
  | nil =>
    intro b _ hba
    cases b with
    | nil => rfl
    | cons y bs' => simp [lexLeb] at hba
  | cons x as' ih =>
    intro b hab hba
    cases b with
    | nil => simp [lexLeb] at hab
    | cons y bs' =>
      rcases Nat.lt_trichotomy x.toNat y.toNat with h | h | h
      · exfalso
        simp only [lexLeb, if_neg (show ¬ y.toNat < x.toNat from by omega),
          if_pos h] at hba
        exact Bool.false_ne_true hba
      · have hx : x = y := Char.eq_of_val_eq (UInt32.ext h)
        subst hx
        have hnn : ¬ x.toNat < x.toNat := by omega
        simp only [lexLeb, if_neg hnn] at hab hba
        rw [ih hab hba]
      · exfalso
        simp only [lexLeb, if_neg (show ¬ x.toNat < y.toNat from by omega),
          if_pos h] at hab
        exact Bool.false_ne_true hab

theorem lexLeb_trans : ∀ {a b c : List Char},
    lexLeb a b = true → lexLeb b c = true → lexLeb a c = true := by
  intro a
  induction a with
  | nil => intro b c _ _; rfl
  | cons x as' ih =>
    intro b c hab hbc
    cases b with
    | nil => simp [lexLeb] at hab
    | cons y bs' =>
      cases c with
      | nil => simp [lexLeb] at hbc
      | cons z cs' =>
        rcases Nat.lt_trichotomy y.toNat z.toNat with hyz | hyz | hyz
        · rcases Nat.lt_trichotomy x.toNat y.toNat with hxy | hxy | hxy
          · simp only [lexLeb, if_pos (show x.toNat < z.toNat from by omega)]
          · simp only [lexLeb, if_pos (show x.toNat < z.toNat from by omega)]
          · simp only [lexLeb, if_neg (show ¬ x.toNat < y.toNat from by omega),
              if_pos hxy] at hab
            exact absurd hab Bool.false_ne_true
        · rcases Nat.lt_trichotomy x.toNat y.toNat with hxy | hxy | hxy
          · simp only [lexLeb, if_pos (show x.toNat < z.toNat from by omega)]
          · simp only [lexLeb, if_neg (show ¬ x.toNat < y.toNat from by omega),
              if_neg (show ¬ y.toNat < x.toNat from by omega)] at hab
            simp only [lexLeb, if_neg (show ¬ y.toNat < z.toNat from by omega),
              if_neg (show ¬ z.toNat < y.toNat from by omega)] at hbc
            simp only [lexLeb, if_neg (show ¬ x.toNat < z.toNat from by omega),
              if_neg (show ¬ z.toNat < x.toNat from by omega)]
            exact ih hab hbc
          · simp only [lexLeb, if_neg (show ¬ x.toNat < y.toNat from by omega),
              if_pos hxy] at hab
            exact absurd hab Bool.false_ne_true
        · simp only [lexLeb, if_neg (show ¬ y.toNat < z.toNat from by omega),
            if_pos hyz] at hbc
          exact absurd hbc Bool.false_ne_true

theorem strLe_total (a b : String) : strLe a b ∨ strLe b a := lexLeb_total a.data b.data

theorem strLe_antisymm {a b : String} (h₁ : strLe a b) (h₂ : strLe b a) : a = b := by
  cases a; cases b
  simpa using congrArg String.mk (lexLeb_antisymm h₁ h₂)

theorem strLe_trans {a b c : String} (h₁ : strLe a b) (h₂ : strLe b c) : strLe a c :=
  lexLeb_trans h₁ h₂

theorem strLe_of_not {a b : String} (h : ¬ strLe a b) : strLe b a :=
  (strLe_total a b).resolve_left h

instance : IsAntisymm String strLe := ⟨fun _ _ => strLe_antisymm⟩

/-- Insert into a key-sorted list of `(key, rendered)` pairs. -/
def insertByKey (x : String × String) : List (String × String) → List (String × String)
  | [] => [x]
  | y :: t => if strLeb x.1 y.1 then x :: y :: t else y :: insertByKey x t

/-- Sort `(key, rendered)` pairs by key (models `sort_keys=True`; dict keys are
unique in Python, so any stable or unstable sort gives the same result). -/
def sortByKey : List (String × String) → List (String × String)
  | [] => []
  | x :: t => insertByKey x (sortByKey t)

mutual

/-- Model of `json.dumps(v, sort_keys=True)`. -/
def jsonDumps : PVal → String
  | PVal.none => "null"
  | PVal.bool b => if b then "true" else "false"
  | PVal.int n => toString n
  | PVal.float q => floatRepr q
  | PVal.str s => jsonQuote s
  | PVal.list xs => "[" ++ ", ".intercalate (jsonDumpsList xs) ++ "]"
  | PVal.dict kvs =>
    obr ++
      ", ".intercalate ((sortByKey (jsonDumpsObj kvs)).map fun p => jsonQuote p.1 ++ ": " ++ p.2)
      ++ cbr
termination_by structural v => v

/-- Serialize each list element. -/
def jsonDumpsList : List PVal → List String
  | [] => []
  | v :: t => jsonDumps v :: jsonDumpsList t
termination_by structural l => l

/-- Serialize each dict value, keeping the raw key for sorting. -/
def jsonDumpsObj : List (String × PVal) → List (String × String)
  | [] => []
  | (k, v) :: t => (k, jsonDumps v) :: jsonDumpsObj t
termination_by structural l => l

end

/-- `CommandGenerator._get_hash`: SHA-256 hex digest of the canonical JSON
serialization.  The digest primitive is abstract (`sha`). -/
def getHash (sha : String → String) (data : PVal) : String :=
  sha (jsonDumps data)

/-! ## Sorting strings (`sorted(...)` on a list of paths) -/

/-- Insertion into a sorted list of strings. -/
def insertStr (x : String) : List String → List String
  | [] => [x]
  | y :: t => if strLeb x y then x :: y :: t else y :: insertStr x t

/-- Model of Python `sorted(strings)` (code-point lexicographic order, the
same order as Lean's `String` linear order). -/
def sortStrs : List String → List String
  | [] => []
  | x :: t => insertStr x (sortStrs t)

theorem insertStr_perm (x : String) (l : List String) : (insertStr x l).Perm (x :: l) := by
  induction l with
  | nil => exact List.Perm.refl _
  | cons y t ih =>
    by_cases h : strLeb x y
    · simp [insertStr, h]
    · simp only [insertStr, if_neg h]
      exact (List.Perm.cons y ih).trans (List.Perm.swap x y t)

theorem sortStrs_perm (l : List String) : (sortStrs l).Perm l := by
  induction l with
  | nil => exact List.Perm.refl _
  | cons x t ih => exact (insertStr_perm x (sortStrs t)).trans (List.Perm.cons x ih)

theorem insertStr_sorted (x : String) (l : List String)
    (h : l.Sorted strLe) : (insertStr x l).Sorted strLe := by
  induction l with
  | nil => simp [insertStr, List.Sorted]
  | cons y t ih =>
    by_cases hxy : strLeb x y
    · simp only [insertStr, if_pos hxy]
      refine List.sorted_cons.2 ⟨fun b hb => ?_, h⟩
      rcases List.mem_cons.1 hb with hb | hb
      · exact hb ▸ hxy
      · exact strLe_trans hxy ((List.sorted_cons.1 h).1 b hb)
    · simp only [insertStr, if_neg hxy]
      have hyx : strLe y x := strLe_of_not hxy
      refine List.sorted_cons.2 ⟨fun b hb => ?_, ih (List.sorted_cons.1 h).2⟩
      rcases List.mem_cons.1 ((insertStr_perm x t).mem_iff.1 hb) with hb | hb
      · exact hb ▸ hyx
      · exact (List.sorted_cons.1 h).1 b hb

theorem sortStrs_sorted (l : List String) : (sortStrs l).Sorted strLe := by
  induction l with
  | nil => simp [sortStrs, List.Sorted]
  | cons x t ih => exact insertStr_sorted x (sortStrs t) ih

/-- Permutations of a string list have the same sorted form. -/
theorem sortStrs_eq_of_perm {l₁ l₂ : List String} (h : l₁.Perm l₂) :
    sortStrs l₁ = sortStrs l₂ :=
  List.eq_of_perm_of_sorted ((sortStrs_perm l₁).trans (h.trans (sortStrs_perm l₂).symm))
    (sortStrs_sorted l₁) (sortStrs_sorted l₂)

/-! ## `shlex.quote` and `os.path.basename` -/

/-- Characters `shlex.quote` treats as safe: ASCII letters, digits, underscore,
`@ % + = : , .`, slash and dash. -/
def shlexSafeChar (c : Char) : Bool :=
  (('a' ≤ c && c ≤ 'z') || ('A' ≤ c && c ≤ 'Z') || ('0' ≤ c && c ≤ '9') ||
   c = '_' || c = '@' || c = '%' || c = '+' || c = '=' || c = ':' ||
   c = ',' || c = '.' || c = '/' || c = '-')

/-- Model of `shlex.quote`. -/
def shlexQuote (s : String) : String :=
  if s = "" then "''"
  else if s.data.all shlexSafeChar then s
  else "'" ++ String.join (s.data.map fun c =>
    if c = '\'' then "'\"'\"'" else String.mk [c]) ++ "'"

/-- Model of `os.path.basename` (POSIX): the part after the last slash. -/
def basename (s : String) : String :=
  String.mk (s.data.reverse.takeWhile (fun c => c ≠ '/')).reverse

/-- Does `hay` contain `needle` as a substring (Python `needle in hay`)? -/
def subIn (needle hay : List Char) : Bool :=
  if needle.isPrefixOf hay then true
  else match hay with
    | [] => needle.isEmpty
    | _ :: t => subIn needle t

/-- String version of substring containment. -/
def containsSub (hay needle : String) : Bool :=
  subIn needle.data hay.data

/-! ## Key-sorted pair lists: permutation lemmas for canonical JSON -/

/-- Ordering of `(key, rendered)` pairs by key. -/
def keyLE (a b : String × String) : Prop := strLe a.1 b.1

theorem insertByKey_perm (x : String × String) (l : List (String × String)) :
    (insertByKey x l).Perm (x :: l) := by
  induction l with
  | nil => exact List.Perm.refl _
  | cons y t ih =>
    by_cases h : strLeb x.1 y.1
    · simp [insertByKey, h]
    · simp only [insertByKey, if_neg h]
      exact (List.Perm.cons y ih).trans (List.Perm.swap x y t)

theorem sortByKey_perm (l : List (String × String)) : (sortByKey l).Perm l := by
  induction l with
  | nil => exact List.Perm.refl _
  | cons x t ih => exact (insertByKey_perm x (sortByKey t)).trans (List.Perm.cons x ih)

theorem insertByKey_sorted (x : String × String) (l : List (String × String))
    (h : l.Sorted keyLE) : (insertByKey x l).Sorted keyLE := by
  induction l with
  | nil => simp [insertByKey, List.Sorted]
  | cons y t ih =>
    by_cases hxy : strLeb x.1 y.1
    · simp only [insertByKey, if_pos hxy]
      refine List.sorted_cons.2 ⟨fun b hb => ?_, h⟩
      rcases List.mem_cons.1 hb with hb | hb
      · exact hb ▸ hxy
      · exact strLe_trans hxy ((List.sorted_cons.1 h).1 b hb)
    · simp only [insertByKey, if_neg hxy]
      have hyx : keyLE y x := strLe_of_not hxy
      refine List.sorted_cons.2 ⟨fun b hb => ?_, ih (List.sorted_cons.1 h).2⟩
      rcases List.mem_cons.1 ((insertByKey_perm x t).mem_iff.1 hb) with hb | hb
      · exact hb ▸ hyx
      · exact (List.sorted_cons.1 h).1 b hb

theorem sortByKey_sorted (l : List (String × String)) : (sortByKey l).Sorted keyLE := by
  induction l with
  | nil => simp [sortByKey, List.Sorted]
  | cons x t ih => exact insertByKey_sorted x (sortByKey t) ih

/-- Two key-sorted pair lists that are permutations of each other are equal
when the keys are duplicate-free. -/
theorem eq_of_perm_sorted_keyNodup :
    ∀ {l₁ l₂ : List (String × String)}, l₁.Perm l₂ →
      l₁.Sorted keyLE → l₂.Sorted keyLE → (l₁.map Prod.fst).Nodup → l₁ = l₂ := by
  intro l₁
  induction l₁ with
  | nil => intro l₂ hp _ _ _; exact (hp.nil_eq).symm ▸ rfl
  | cons x t₁ ih =>
    intro l₂ hp hs₁ hs₂ hnd
    match l₂ with
    | [] => exact absurd hp.symm.nil_eq (by simp)
    | y :: t₂ =>
      rw [List.map_cons] at hnd
      have hnd₁ : x.1 ∉ List.map Prod.fst t₁ := (List.nodup_cons.1 hnd).1
      have hnd₂ : (List.map Prod.fst t₁).Nodup := (List.nodup_cons.1 hnd).2
      have hxy : x = y := by
        rcases List.mem_cons.1 (hp.mem_iff.1 (List.mem_cons_self x t₁)) with h | hxt₂
        · exact h
        · rcases List.mem_cons.1 (hp.symm.mem_iff.1 (List.mem_cons_self y t₂)) with h | hyt₁
          · exact h.symm
          · exfalso
            have h₁ : strLe x.1 y.1 := (List.sorted_cons.1 hs₁).1 y hyt₁
            have h₂ : strLe y.1 x.1 := (List.sorted_cons.1 hs₂).1 x hxt₂
            have hkey : y.1 = x.1 := strLe_antisymm h₂ h₁
            exact hnd₁ (hkey ▸ List.mem_map_of_mem Prod.fst hyt₁)
      subst hxy
      have hp' : t₁.Perm t₂ := hp.cons_inv
      have := ih hp' (List.sorted_cons.1 hs₁).2 (List.sorted_cons.1 hs₂).2 hnd₂
      rw [this]

theorem jsonDumpsObj_eq_map (kvs : List (String × PVal)) :
    jsonDumpsObj kvs = kvs.map (fun p => (p.1, jsonDumps p.2)) := by
  induction kvs with
  | nil => rfl
  | cons p t ih => cases p; simp [jsonDumpsObj, ih]

/-- Canonical JSON of a dict is invariant under permutation of its
(duplicate-free) entries: the content of `sort_keys=True`. -/
theorem jsonDumps_dict_perm {kvs₁ kvs₂ : List (String × PVal)}
    (hp : kvs₁.Perm kvs₂) (hnd : (kvs₁.map Prod.fst).Nodup) :
    jsonDumps (PVal.dict kvs₁) = jsonDumps (PVal.dict kvs₂) := by
  have hobj : (jsonDumpsObj kvs₁).Perm (jsonDumpsObj kvs₂) := by
    rw [jsonDumpsObj_eq_map, jsonDumpsObj_eq_map]; exact hp.map _
  have hkeys : (jsonDumpsObj kvs₁).map Prod.fst = kvs₁.map Prod.fst := by
    rw [jsonDumpsObj_eq_map, List.map_map]; rfl
  have hsorteq : sortByKey (jsonDumpsObj kvs₁) = sortByKey (jsonDumpsObj kvs₂) := by
    apply eq_of_perm_sorted_keyNodup
    · exact (sortByKey_perm _).trans (hobj.trans (sortByKey_perm _).symm)
    · exact sortByKey_sorted _
    · exact sortByKey_sorted _
    · exact ((sortByKey_perm (jsonDumpsObj kvs₁)).map Prod.fst).nodup_iff.2
        (hkeys ▸ hnd)
  show obr ++ _ ++ cbr = obr ++ _ ++ cbr
  rw [hsorteq]

/-! ## Model of `str.format_map`

`CommandGenerator` formats template strings either through `SafeFormatter`
(a dict returning the literal `{key}` for missing keys) or through a plain
dict (missing keys raise `KeyError`).  The model covers the template
language the build engine uses: literal text, doubled braces, and simple
`{NAME}` fields.  Features the engine's templates never exercise are mapped
to the corresponding error paths: conversions (`!r`), nonempty format
specifiers (which raise for the string values `SafeFormatter` produces),
attribute/index fields and positional fields (whose Python exceptions are
`AttributeError`/`IndexError`, not `ValueError`). -/

/-- Error outcomes of one `format_map` call. -/
inductive FmtErr where
  | unmatchedOpenBrace : FmtErr
  | singleClosingBrace : FmtErr
  | invalidFormatSpec : FmtErr
  | conversionUnsupported : FmtErr
  | positionalField : FmtErr
  | attrIndexField : FmtErr
  | keyError (k : String) : FmtErr
  | fuelExhausted : FmtErr
deriving DecidableEq

/-- A template context: the merged configuration dict. -/
abbrev Ctx : Type := List (String × PVal)

/-- Replacement-field substitution: look the field name up in the context.
With `safe = true` (the `SafeFormatter` dict) a missing key yields the
literal `{field}` text; otherwise it is a `KeyError`. -/
def fmtField (safe : Bool) (ctx : Ctx) (field : List Char) : Except FmtErr (List Char) :=
  if field.isEmpty then Except.error FmtErr.positionalField
  else if (field.headD ' ').isDigit then Except.error FmtErr.positionalField
  else if field.contains '.' || field.contains '[' then Except.error FmtErr.attrIndexField
  else match assocLookup ctx (String.mk field) with
    | some v => Except.ok (pyStr v).data
    | Option.none =>
      if safe then Except.ok ('{' :: field ++ ['}'])
      else Except.error (FmtErr.keyError (String.mk field))

/-- One pass of `str.format_map` over the character list; `fuel` bounds the
recursion and is never exhausted when it starts at `length + 1`. -/
def fmtGo (safe : Bool) (ctx : Ctx) : Nat → List Char → Except FmtErr (List Char)
  | 0, _ => Except.error FmtErr.fuelExhausted
  | _ + 1, [] => Except.ok []
  | fuel + 1, a :: rest =>
    if a = '\x7b' then
      if rest.head? = some '\x7b' then
        (fmtGo safe ctx fuel rest.tail).map (fun t => '\x7b' :: t)
      else
        let p := rest.span (fun c => !(c == '\x7d' || c == ':' || c == '!'))
        match p.2 with
        | [] => Except.error FmtErr.unmatchedOpenBrace
        | d :: rest₂ =>
          if d = '!' then Except.error FmtErr.conversionUnsupported
          else if d = ':' then
            let q := rest₂.span (fun c => !(c == '\x7d'))
            match q.2 with
            | [] => Except.error FmtErr.unmatchedOpenBrace
            | _ :: rest₃ =>
              if q.1.isEmpty then
                match fmtField safe ctx p.1 with
                | Except.error e => Except.error e
                | Except.ok sub => (fmtGo safe ctx fuel rest₃).map (fun t => sub ++ t)
              else Except.error FmtErr.invalidFormatSpec
          else
            match fmtField safe ctx p.1 with
            | Except.error e => Except.error e
            | Except.ok sub => (fmtGo safe ctx fuel rest₂).map (fun t => sub ++ t)
    else if a = '\x7d' then
      if rest.head? = some '\x7d' then
        (fmtGo safe ctx fuel rest.tail).map (fun t => '\x7d' :: t)
      else Except.error FmtErr.singleClosingBrace
    else (fmtGo safe ctx fuel rest).map (fun t => a :: t)

/-- Model of `s.format_map(m)`: `safe = true` for `SafeFormatter`, `false`
for a plain dict. -/
def formatMap (safe : Bool) (ctx : Ctx) (s : String) : Except FmtErr String :=
  (fmtGo safe ctx (s.data.length + 1) s.data).map String.mk

/-! ## Errors raised by the command generator

`CommandGenerator` raises `ValueError` for configuration problems; the
planner wraps them in `RuntimeError` with the node name.  The constructors
carry the data the Python messages interpolate (token, step name, original
template), so theorems can state exactly what an error names. -/

inductive BErr where
  | lateBoundParam (node ph : String) : BErr
  | missingOutputPlaceholder (node rule : String) : BErr
  | parametersPlaceholderMissing (node : String) : BErr
  | positionalPlaceholderMissing (node : String) : BErr
  | requiresIndexRange (node : String) (idx : Nat) : BErr
  | inputsIndexRange (node : String) (idx : Nat) : BErr
  | unresolvedOutputKey (dep : String) : BErr
  | switchNameMissing : BErr
  | templateSyntax (node original : String) (e : FmtErr) : BErr
  | unresolvedVariable (node original : String) (e : FmtErr) : BErr
  | undefinedParam (node key original : String) : BErr
  | finalPassSyntax (node : String) (e : FmtErr) : BErr
  | unresolvedToken (token node template : String) : BErr
  | shlexFailure (node command template : String) : BErr
  | pythonExn (e : FmtErr) : BErr
  | internalFuel : BErr
deriving DecidableEq

/-- Which `FmtErr`s correspond to Python `ValueError`s raised by
`format_map` (the kinds `_raise_formatting_error` translates). -/
def FmtErr.isValueError : FmtErr → Bool
  | FmtErr.unmatchedOpenBrace => true
  | FmtErr.singleClosingBrace => true
  | FmtErr.invalidFormatSpec => true
  | _ => false

/-- Error translation for one safe pass inside `_deep_template`: a
`ValueError` goes through `_raise_formatting_error` (named with the in-flight
string), any other exception is caught by the outer handler and reported as
an unresolvable variable. -/
def deepPassErr (node prev : String) (e : FmtErr) : BErr :=
  if e.isValueError then BErr.templateSyntax node prev e
  else BErr.unresolvedVariable node prev e

/-- The safe passes of `_deep_template`: the `for i in range(5)` loop has no
fixed-point break, so it always performs five passes. -/
def deepIter (node : String) (ctx : Ctx) : Nat → String → Except BErr String
  | 0, s => Except.ok s
  | n + 1, s =>
    match formatMap true ctx s with
    | Except.error e => Except.error (deepPassErr node s e)
    | Except.ok s' => deepIter node ctx n s'

/-- `CommandGenerator._deep_template` on a string: five safe passes, then a
strict final pass against the plain context dict; its `KeyError` becomes the
user-facing undefined-parameter error naming the original template, and any
other exception propagates. -/
def deepTemplateStr (node : String) (ctx : Ctx) (s : String) : Except BErr String :=
  match deepIter node ctx 5 s with
  | Except.error e => Except.error e
  | Except.ok s5 =>
    match formatMap false ctx s5 with
    | Except.ok r => Except.ok r
    | Except.error (FmtErr.keyError k) => Except.error (BErr.undefinedParam node k s)
    | Except.error e => Except.error (BErr.finalPassSyntax node e)

mutual

/-- `_deep_template` on an arbitrary value: strings are templated, lists and
dicts recurse, all other values pass through unchanged. -/
def deepTemplateVal (node : String) (ctx : Ctx) : PVal → Except BErr PVal
  | PVal.str s => (deepTemplateStr node ctx s).map PVal.str
  | PVal.list xs => (deepTemplateListGo node ctx xs).map PVal.list
  | PVal.dict kvs => (deepTemplateObjGo node ctx kvs).map PVal.dict
  | v => Except.ok v
termination_by structural v => v

/-- `_deep_template` elementwise on a list. -/
def deepTemplateListGo (node : String) (ctx : Ctx) :
    List PVal → Except BErr (List PVal)
  | [] => Except.ok []
  | v :: t =>
    match deepTemplateVal node ctx v with
    | Except.error e => Except.error e
    | Except.ok v' =>
      match deepTemplateListGo node ctx t with
      | Except.error e => Except.error e
      | Except.ok t' => Except.ok (v' :: t')
termination_by structural l => l

/-- `_deep_template` valuewise on a dict. -/
def deepTemplateObjGo (node : String) (ctx : Ctx) :
    List (String × PVal) → Except BErr (List (String × PVal))
  | [] => Except.ok []
  | (k, v) :: t =>
    match deepTemplateVal node ctx v with
    | Except.error e => Except.error e
    | Except.ok v' =>
      match deepTemplateObjGo node ctx t with
      | Except.error e => Except.error e
      | Except.ok t' => Except.ok ((k, v') :: t')
termination_by structural l => l

end

/-! ## Python dict construction -/

/-- Python dict assignment `d[k] = v` on an association list: overwrite in
place when the key exists, else append. -/
def setKey (d : List (String × PVal)) (p : String × PVal) : List (String × PVal) :=
  match d with
  | [] => [p]
  | (k, v) :: t => if k = p.1 then (k, p.2) :: t else (k, v) :: setKey t p

/-- Python `{**a, **b}` dict merge (later keys override earlier ones,
keeping the earlier position; new keys append in order). -/
def dictUpdate (a b : List (String × PVal)) : List (String × PVal) :=
  b.foldl setKey a

/-- `cfg.get("PARAMETERS", {}).get(rule_name, {})`: per-rule parameter
block of a `GENERAL` or `PROFILES` section.  A non-dict value at either level
would raise in Python and is outside the modelled configurations. -/
def getRuleParams (cfg : List (String × PVal)) (rule : String) : List (String × PVal) :=
  match assocLookup cfg "PARAMETERS" with
  | some (PVal.dict d) =>
    match assocLookup d rule with
    | some (PVal.dict p) => p
    | _ => []
  | _ => []

/-- `CommandGenerator._merge_parameters`: `GENERAL` per-rule params, overridden
by `PROFILE` per-rule params, overridden by step-local params, then deep
templated. -/
def mergeParameters (node : String) (generalConfig profileConfig : List (String × PVal))
    (ruleName : String) (workflowParams : List (String × PVal)) (ctx : Ctx) :
    Except BErr (List (String × PVal)) :=
  deepTemplateObjGo node ctx
    (dictUpdate (dictUpdate (getRuleParams generalConfig ruleName)
      (getRuleParams profileConfig ruleName)) workflowParams)

/-! ## Step definitions -/

/-- The `RULE` block of a step (optional fields model `dict.get` defaults). -/
structure RuleData where
  name : String
  command : String
  dash : Option String := Option.none
  inputStyle : Option String := Option.none
  inputSwitchName : Option String := Option.none
  inputQuoted : Option Bool := Option.none
  unquotedParams : Option (List String) := Option.none
  unquotedPositionals : Option Bool := Option.none
deriving DecidableEq

/-- A YAML field that may be a single string or a list of strings
(`INPUTS`, `POSITIONAL_FILENAMES`). -/
inductive StrOrList where
  | absent : StrOrList
  | one (s : String) : StrOrList
  | many (xs : List String) : StrOrList
deriving DecidableEq

/-- The `isinstance(x, str)` wrap-into-a-list normalization. -/
def StrOrList.toList : StrOrList → List String
  | StrOrList.absent => []
  | StrOrList.one s => [s]
  | StrOrList.many xs => xs

/-- A workflow step definition (the node data of the execution graph). -/
structure NodeData where
  rule : RuleData
  output : String
  inputs : StrOrList := StrOrList.absent
  parameters : List (String × PVal) := []
  requiresList : List String := []
  positionalFilenames : StrOrList := StrOrList.absent
deriving DecidableEq

/-! ## Input resolution (`CommandGenerator._resolve_all_inputs`) -/

/-- Digits to a natural number (`int(...)` on a digit string). -/
def digitsToNat (l : List Char) : Nat :=
  l.foldl (fun acc c => acc * 10 + (c.toNat - '0'.toNat)) 0

/-- Model of `re.fullmatch` against an opening brace, `REQUIRES[`, a digit
group, `]`, a closing brace; returns the captured index. -/
def parseRequiresIdx (s : String) : Option Nat :=
  let pre := (obr ++ "REQUIRES[").data
  if pre.isPrefixOf s.data then
    let rest := s.data.drop pre.length
    let digits := rest.takeWhile Char.isDigit
    let tail := rest.drop digits.length
    if digits.isEmpty then Option.none
    else if tail = [']', '}'] then some (digitsToNat digits) else Option.none
  else Option.none

/-- The `{INPUT_FILES}` splice: `all_inputs.extend(context.get("INPUT_FILES", []))`.
Python `extend` iterates the value: a list contributes its items (paths, i.e.
strings), a string contributes its characters; a missing key contributes
nothing.  Other types raise in Python and are outside the modelled configs. -/
def ctxInputFiles (ctx : Ctx) : List String :=
  match assocLookup ctx "INPUT_FILES" with
  | some (PVal.list xs) => xs.map pyStr
  | some (PVal.str s) => s.data.map (fun c => String.mk [c])
  | _ => []

/-- The loop body of `_resolve_all_inputs` for one `INPUTS` entry. -/
def resolveOneInput (node : String) (requiresList : List String)
    (resolvedOutputs : List (String × String)) (ctx : Ctx) (tmpl : String) :
    Except BErr (List String) :=
  match parseRequiresIdx tmpl with
  | some i =>
    if h : i < requiresList.length then
      match assocLookup resolvedOutputs (requiresList.get ⟨i, h⟩) with
      | some out => Except.ok [out]
      | Option.none => Except.error (BErr.unresolvedOutputKey (requiresList.get ⟨i, h⟩))
    else Except.error (BErr.requiresIndexRange node i)
  | Option.none =>
    if tmpl = "{INPUT_FILES}" then Except.ok (ctxInputFiles ctx)
    else (deepTemplateStr node ctx tmpl).map (fun r => [r])

/-- The entry loop of `_resolve_all_inputs`, concatenating per-entry results. -/
def resolveInputsGo (node : String) (requiresList : List String)
    (resolvedOutputs : List (String × String)) (ctx : Ctx) :
    List String → Except BErr (List String)
  | [] => Except.ok []
  | tmpl :: rest =>
    match resolveOneInput node requiresList resolvedOutputs ctx tmpl with
    | Except.error e => Except.error e
    | Except.ok xs =>
      match resolveInputsGo node requiresList resolvedOutputs ctx rest with
      | Except.error e => Except.error e
      | Except.ok ys => Except.ok (xs ++ ys)

/-- `CommandGenerator._resolve_all_inputs`. -/
def resolveAllInputs (node : String) (nd : NodeData) (ctx : Ctx)
    (resolvedOutputs : List (String × String)) : Except BErr (List String) :=
  resolveInputsGo node nd.requiresList resolvedOutputs ctx nd.inputs.toList

/-! ## `shlex.split` (POSIX mode, whitespace splitting)

`_build_command_string` validates the rendered command with `shlex.split`;
only success or failure matters to the generator, but the token list is
modelled for fidelity. -/

/-- Characters in `shlex.whitespace`. -/
def shWhitespace (c : Char) : Bool :=
  c = ' ' || c = '\t' || c = '\r' || c = '\n'

/-- Lexer state: outside quotes, inside single quotes, inside double quotes. -/
inductive ShMode where
  | norm : ShMode
  | inSingle : ShMode
  | inDouble : ShMode
deriving DecidableEq

/-- The `shlex` read loop.  `cur = Option.none` means no token in progress. -/
def shlexGo : Nat → ShMode → Option (List Char) → List Char →
    Except String (List (List Char))
  | 0, _, _, _ => Except.error "fuel"
  | _ + 1, ShMode.norm, cur, [] =>
    Except.ok (match cur with | some tok => [tok] | Option.none => [])
  | fuel + 1, ShMode.norm, cur, c :: t =>
    if shWhitespace c then
      match cur with
      | some tok => (shlexGo fuel ShMode.norm Option.none t).map (fun r => tok :: r)
      | Option.none => shlexGo fuel ShMode.norm Option.none t
    else if c = '\'' then shlexGo fuel ShMode.inSingle (some (cur.getD [])) t
    else if c = '"' then shlexGo fuel ShMode.inDouble (some (cur.getD [])) t
    else if c = '\\' then
      match t with
      | [] => Except.error "No escaped character"
      | e :: t' => shlexGo fuel ShMode.norm (some (cur.getD [] ++ [e])) t'
    else shlexGo fuel ShMode.norm (some (cur.getD [] ++ [c])) t
  | _ + 1, ShMode.inSingle, _, [] => Except.error "No closing quotation"
  | fuel + 1, ShMode.inSingle, cur, c :: t =>
    if c = '\'' then shlexGo fuel ShMode.norm cur t
    else shlexGo fuel ShMode.inSingle (some (cur.getD [] ++ [c])) t
  | _ + 1, ShMode.inDouble, _, [] => Except.error "No closing quotation"
  | fuel + 1, ShMode.inDouble, cur, c :: t =>
    if c = '"' then shlexGo fuel ShMode.norm cur t
    else if c = '\\' then
      match t with
      | [] => Except.error "No closing quotation"
      | e :: t' =>
        if e = '"' || e = '\\' then
          shlexGo fuel ShMode.inDouble (some (cur.getD [] ++ [e])) t'
        else shlexGo fuel ShMode.inDouble (some (cur.getD [] ++ ['\\', e])) t'
    else shlexGo fuel ShMode.inDouble (some (cur.getD [] ++ [c])) t

/-- Model of `shlex.split(s)`. -/
def shlexSplit (s : String) : Except String (List String) :=
  (shlexGo (s.data.length + 1) ShMode.norm Option.none s.data).map (fun r => r.map String.mk)

/-! ## Parameter flag rendering (`CommandGenerator._format_shell_params`) -/

/-- The flag-emission loop: one pass over the merged parameters in insertion
order, appending emitted tokens.  The `key in unquoted_params` branch is
tested before the type dispatch, exactly as in the source. -/
def emitParams (dash : String) (unq : List String) :
    List (String × PVal) → List String
  | [] => []
  | (k, v) :: rest =>
    let tail := emitParams dash unq rest
    match v with
    | PVal.none => tail
    | w =>
      let flag := dash ++ k
      if k ∈ unq then flag :: pyStr w :: tail
      else match w with
        | PVal.bool b => if b then shlexQuote flag :: tail else tail
        | PVal.list items =>
          (items.flatMap (fun it => [shlexQuote flag, shlexQuote (pyStr it)])) ++ tail
        | x => shlexQuote flag :: shlexQuote (pyStr x) :: tail

/-- `CommandGenerator._format_shell_params`. -/
def formatShellParams (params : List (String × PVal)) (dash : String)
    (unq : List String) : String :=
  " ".intercalate (emitParams dash unq params)

/-- `CommandGenerator._format_inputs_string`. -/
def formatInputsString (rule : RuleData) (inputs : List String) :
    Except BErr String :=
  let style := rule.inputStyle.getD "positional"
  let quoted := rule.inputQuoted.getD true
  let fi := inputs.map (fun f => if quoted then shlexQuote f else f)
  if style = "positional" then Except.ok (" ".intercalate fi)
  else if style = "switch" then
    match rule.inputSwitchName with
    | some sw =>
      if sw = "" then Except.error BErr.switchNameMissing
      else Except.ok (" ".intercalate (fi.flatMap (fun f => [sw, f])))
    | Option.none => Except.error BErr.switchNameMissing
  else Except.ok ""

/-! ## Command assembly (`CommandGenerator._build_command_string`) -/

/-- Match `INPUTS[`, digits, `]` and a closing brace at the head of `l`
(the text following an opening brace); returns the index and the rest. -/
def matchInputsIdx (l : List Char) : Option (Nat × List Char) :=
  let pre := "INPUTS[".data
  if pre.isPrefixOf l then
    let rest := l.drop pre.length
    let digits := rest.takeWhile Char.isDigit
    let tail := rest.drop digits.length
    if digits.isEmpty then Option.none
    else match tail with
      | ']' :: '\x7d' :: rest' => some (digitsToNat digits, rest')
      | _ => Option.none
  else Option.none

/-- Does the template contain an indexed-inputs placeholder
(`re.search` of an opening brace, `INPUTS[`, digits, `]`, closing brace)? -/
def hasInputsIdxPh (s : String) : Bool :=
  go s.data
where
  go : List Char → Bool
    | [] => false
    | '\x7b' :: rest => (matchInputsIdx rest).isSome || go rest
    | _ :: rest => go rest

/-- `re.sub` of each indexed-inputs placeholder by the shell-quoted resolved
input; an out-of-range index raises (`resolve_input_index`). -/
def substInputsGo (node : String) (inputs : List String) :
    Nat → List Char → Except BErr (List Char)
  | 0, _ => Except.error BErr.internalFuel
  | _ + 1, [] => Except.ok []
  | fuel + 1, '\x7b' :: rest =>
    match matchInputsIdx rest with
    | some (i, rest') =>
      if h : i < inputs.length then
        match substInputsGo node inputs fuel rest' with
        | Except.error e => Except.error e
        | Except.ok t => Except.ok ((shlexQuote (inputs.get ⟨i, h⟩)).data ++ t)
      else Except.error (BErr.inputsIndexRange node i)
    | Option.none =>
      match substInputsGo node inputs fuel rest with
      | Except.error e => Except.error e
      | Except.ok t => Except.ok ('\x7b' :: t)
  | fuel + 1, c :: rest =>
    match substInputsGo node inputs fuel rest with
    | Except.error e => Except.error e
    | Except.ok t => Except.ok (c :: t)

/-- String wrapper for the indexed-inputs substitution. -/
def substInputsIdx (node : String) (inputs : List String) (s : String) :
    Except BErr String :=
  (substInputsGo node inputs (s.data.length + 1) s.data).map String.mk

/-- Error translation in `_build_command_string`: only `ValueError` is caught
(and routed through `_raise_formatting_error` naming the substituted
template); other exceptions propagate. -/
def buildPassErr (node tmpl : String) (e : FmtErr) : BErr :=
  if e.isValueError then BErr.templateSyntax node tmpl e else BErr.pythonExn e

/-- The iterative-resolution loop of `_build_command_string`: up to five safe
passes, stopping at a fixed point. -/
def iterFormat (node tmpl : String) (ctx : Ctx) : Nat → String → Except BErr String
  | 0, s => Except.ok s
  | n + 1, s =>
    match formatMap true ctx s with
    | Except.error e => Except.error (buildPassErr node tmpl e)
    | Except.ok s' => if s' = s then Except.ok s' else iterFormat node tmpl ctx n s'

/-- Python whitespace for `str.strip()` (ASCII subset). -/
def isPySpace (c : Char) : Bool :=
  c = ' ' || c = '\t' || c = '\n' || c = '\r' || c.toNat = 11 || c.toNat = 12

/-- `str.strip()`. -/
def pyStrip (s : String) : String :=
  String.mk ((s.data.dropWhile isPySpace).reverse.dropWhile isPySpace).reverse

/-- One left-to-right pass of `str.replace` replacing each non-overlapping
double space by a single space. -/
def squeezePairSpaces : List Char → List Char
  | ' ' :: ' ' :: rest => ' ' :: squeezePairSpaces rest
  | c :: rest => c :: squeezePairSpaces rest
  | [] => []

/-- `resolved_command.strip().replace(double-space, space)`. -/
def cleanupCommand (s : String) : String :=
  String.mk (squeezePairSpaces (pyStrip s).data)

/-- Characters allowed after the leading uppercase letter of an unresolved
placeholder token (the strict-pass regex class: letters, digits, underscore,
colon, comma, dot, ampersand). -/
def isTokenChar (c : Char) : Bool :=
  c.isAlpha || c.isDigit || c = '_' || c = ':' || c = ',' || c = '.' || c = '&'

/-- `re.search` for the strict-pass pattern: an opening brace, an uppercase
letter, a run of token characters, a closing brace.  Returns the first
matched token (braces included); on a failed match at one position the scan
resumes at the next position. -/
def findUnresolvedGo : List Char → Option String
  | [] => Option.none
  | a :: rest =>
    if a = '\x7b' then
      match rest with
      | c :: cs =>
        if c.isUpper then
          match cs.drop (cs.takeWhile isTokenChar).length with
          | '\x7d' :: _ =>
            some (String.mk ('\x7b' :: c :: cs.takeWhile isTokenChar ++ ['\x7d']))
          | _ => findUnresolvedGo rest
        else findUnresolvedGo rest
      | [] => Option.none
    else findUnresolvedGo rest

/-- String wrapper for the strict-pass search. -/
def findUnresolved (s : String) : Option String :=
  findUnresolvedGo s.data

/-- Per-step command data produced by the generator (the dict returned by
`generate_for_node`; `node_name` is attached later by `plan_build`). -/
structure Hashes where
  command : String
  inputs : String
  params : String
deriving DecidableEq

structure Cmd where
  cmdString : String
  inputFiles : List String
  output : String
  hashes : Hashes
deriving DecidableEq

/-- `_build_command_string` up to (and including) the strip/space cleanup:
input/parameter/positional string rendering, the template context, indexed
input substitution and the iterative resolution loop. -/
def renderCommandText (node : String) (rule : RuleData) (inputs : List String)
    (output : String) (params : List (String × PVal)) (positional : List String)
    (ctx : Ctx) : Except BErr String := do
  let template := rule.command
  let parts ←
    if containsSub template "{INPUTS}" && !(hasInputsIdxPh template) then do
      let inputsStr ← formatInputsString rule inputs
      let paramsStr := formatShellParams params (rule.dash.getD "-") (rule.unquotedParams.getD [])
      pure (inputsStr, paramsStr, "")
    else do
      let unqPos := rule.unquotedPositionals.getD false
      let posStr := " ".intercalate (if unqPos then positional else positional.map shlexQuote)
      let paramsStr := formatShellParams params (rule.dash.getD "-") (rule.unquotedParams.getD [])
      let inputsStr := " ".intercalate (inputs.map shlexQuote)
      pure (inputsStr, paramsStr, posStr)
  let templateCtx := dictUpdate ctx
    [("OUTPUT", PVal.str output), ("INPUTS", PVal.str parts.1),
     ("PARAMS", PVal.dict params), ("PARAMETERS", PVal.str parts.2.1),
     ("POSITIONAL_FILENAMES", PVal.str parts.2.2)]
  let finalTemplate ← substInputsIdx node inputs template
  let resolved ← iterFormat node finalTemplate templateCtx 5 finalTemplate
  pure (cleanupCommand resolved)

/-- `CommandGenerator._build_command_string`: render, validate that no
uppercase-led placeholder survives, then `shlex`-validate. -/
def buildCommandString (node : String) (rule : RuleData) (inputs : List String)
    (output : String) (params : List (String × PVal)) (positional : List String)
    (ctx : Ctx) : Except BErr String := do
  let cleaned ← renderCommandText node rule inputs output params positional ctx
  match findUnresolved cleaned with
  | some tok => Except.error (BErr.unresolvedToken tok node rule.command)
  | Option.none =>
    match shlexSplit cleaned with
    | Except.error _ => Except.error (BErr.shlexFailure node cleaned rule.command)
    | Except.ok _ => Except.ok cleaned

/-! ## `CommandGenerator.generate_for_node` -/

/-- The late-bound placeholders disallowed inside step-local `PARAMETERS`. -/
def lateBoundList : List String :=
  ["{OUTPUT}", "{INPUTS}", "{PARAMETERS}", "{POSITIONAL_FILENAMES}"]

/-- The validation loop over step-local parameters: the first (entry,
placeholder) pair with `placeholder in str(value)`. -/
def findLateBound (params : List (String × PVal)) : Option String :=
  params.findSome? (fun kv => lateBoundList.find? (fun ph => containsSub (pyStr kv.2) ph))

/-- Deep-template a list of strings (the positional-filenames templates). -/
def deepStrList (node : String) (ctx : Ctx) : List String → Except BErr (List String)
  | [] => Except.ok []
  | x :: t =>
    match deepTemplateStr node ctx x with
    | Except.error e => Except.error e
    | Except.ok x' =>
      match deepStrList node ctx t with
      | Except.error e => Except.error e
      | Except.ok t' => Except.ok (x' :: t')

/-- `CommandGenerator.generate_for_node`.  `sha` abstracts the SHA-256 hex
digest; `resolvedOutputs` is the planner's map of already-resolved outputs. -/
def generateForNode (sha : String → String)
    (generalConfig profileConfig : List (String × PVal)) (node : String)
    (nd : NodeData) (ctx : Ctx) (resolvedOutputs : List (String × String)) :
    Except BErr Cmd :=
  match findLateBound nd.parameters with
  | some ph => Except.error (BErr.lateBoundParam node ph)
  | Option.none => do
    let finalParams ← mergeParameters node generalConfig profileConfig nd.rule.name
      nd.parameters ctx
    let inputs ← resolveAllInputs node nd ctx resolvedOutputs
    let posTemplates := nd.positionalFilenames.toList
    let template := nd.rule.command
    if !(containsSub template "{OUTPUT}") then
      Except.error (BErr.missingOutputPlaceholder node nd.rule.name)
    else if !finalParams.isEmpty && !(containsSub template "{PARAMETERS}") then
      Except.error (BErr.parametersPlaceholderMissing node)
    else if !posTemplates.isEmpty && !(containsSub template "{POSITIONAL_FILENAMES}") then
      Except.error (BErr.positionalPlaceholderMissing node)
    else do
      let output ← deepTemplateStr node ctx nd.output
      let commandHash := getHash sha (PVal.str template)
      let inputsHash := getHash sha (PVal.list ((sortStrs inputs).map PVal.str))
      let paramsHash := getHash sha (PVal.dict finalParams)
      let localCtx := dictUpdate ctx
        [("INPUTS", PVal.list (inputs.map PVal.str)), ("OUTPUT", PVal.str output)]
      let positional ← deepStrList node localCtx posTemplates
      let cmdString ← buildCommandString node nd.rule inputs output finalParams positional ctx
      Except.ok ⟨cmdString, inputs, output, ⟨commandHash, inputsHash, paramsHash⟩⟩

/-! ## The planner (`BuildPlanner`)

The filesystem is a map from path to `Option` mtime (`Option.none` means the
path does not exist); `os.path.exists` is `Option.isSome`, `os.path.getmtime`
is the value.  The build state is the JSON-decoded content of the state file:
a dict from output path to entry.  Exceptions escaping `_is_step_outdated`
(`AttributeError`/`TypeError` on malformed state values) are modelled by
`StepErr`. -/

/-- Filesystem model: mtime of each existing path. -/
abbrev Fs : Type := String → Option ℚ

/-- The JSON-decoded state mapping. -/
abbrev StateMap : Type := List (String × PVal)

/-- `UpdateCode` (an `IntEnum` in the source). -/
inductive UpdateCode where
  | UP_TO_DATE : UpdateCode
  | MISSING_OUTPUT : UpdateCode
  | NOT_TRACKED : UpdateCode
  | COMMAND_CHANGED : UpdateCode
  | INPUTS_CHANGED : UpdateCode
  | PARAMS_CHANGED : UpdateCode
  | NEWER_INPUT : UpdateCode
  | MISSING_INPUT : UpdateCode
  | STALE_TARGET : UpdateCode
deriving DecidableEq

/-- Exceptions escaping `_is_step_outdated` on malformed state entries. -/
inductive StepErr where
  | attrError : StepErr
  | typeError : StepErr
deriving DecidableEq

/-- `stored_state.get('mtime', 0)` followed by its first use: the missing key
defaults to `0`; numeric values (and `bool`, a Python `int` subtype) pass;
any other stored value raises `TypeError` at `time.ctime(last_build_mtime)`
in the debug log. -/
def pvalToMtime : Option PVal → Except StepErr ℚ
  | Option.none => Except.ok 0
  | some (PVal.int n) => Except.ok (n : ℚ)
  | some (PVal.float q) => Except.ok q
  | some (PVal.bool b) => Except.ok (if b then 1 else 0)
  | some _ => Except.error StepErr.typeError

/-- The mtime loop of `_is_step_outdated`: inputs are scanned in list order;
a missing input raises `FileNotFoundError` (returned as `Except.error` with
the path), a strictly newer input returns it; falling through means every
input is present and not newer. -/
def mtimeScan (fs : Fs) (lastM : ℚ) : List String → Except String (Option String)
  | [] => Except.ok Option.none
  | f :: rest =>
    match fs f with
    | Option.none => Except.error f
    | some m => if lastM < m then Except.ok (some f) else mtimeScan fs lastM rest

/-- `BuildPlanner._is_step_outdated`. -/
def isStepOutdated (fs : Fs) (state : StateMap) (cmd : Cmd) :
    Except StepErr (UpdateCode × String) :=
  let outputPath := cmd.output
  if (fs outputPath).isNone then
    Except.ok (UpdateCode.MISSING_OUTPUT, basename outputPath)
  else
    match assocLookup state outputPath with
    | Option.none => Except.ok (UpdateCode.NOT_TRACKED, basename outputPath)
    | some stored =>
      if pyFalsy stored then Except.ok (UpdateCode.NOT_TRACKED, basename outputPath)
      else
        match stored with
        | PVal.dict entry =>
          match (assocLookup entry "hashes").getD (PVal.dict []) with
          | PVal.dict hs =>
            if assocLookup hs "command" ≠ some (PVal.str cmd.hashes.command) then
              Except.ok (UpdateCode.COMMAND_CHANGED, "")
            else if assocLookup hs "inputs" ≠ some (PVal.str cmd.hashes.inputs) then
              Except.ok (UpdateCode.INPUTS_CHANGED, "")
            else if assocLookup hs "params" ≠ some (PVal.str cmd.hashes.params) then
              Except.ok (UpdateCode.PARAMS_CHANGED, "")
            else
              match pvalToMtime (assocLookup entry "mtime") with
              | Except.error e => Except.error e
              | Except.ok lastM =>
                match mtimeScan fs lastM cmd.inputFiles with
                | Except.error missing =>
                  Except.ok (UpdateCode.MISSING_INPUT, basename missing)
                | Except.ok (some newer) =>
                  Except.ok (UpdateCode.NEWER_INPUT, basename newer)
                | Except.ok Option.none => Except.ok (UpdateCode.UP_TO_DATE, "")
          | _ => Except.error StepErr.attrError
        | _ => Except.error StepErr.attrError

/-- One entry of a build plan. -/
structure BuildStepL where
  nodeName : String
  command : Cmd
  updateCode : UpdateCode
  context : String
deriving DecidableEq

/-- A build plan.  The Python `BuildPlan` also carries `command_map` and
`execution_graph`; both are inputs of the model (`cmdOf`, `buildOrder`,
`descendants`), passed through unchanged by `plan_build`. -/
structure BuildPlanL where
  stepsToRun : List BuildStepL
  stepsToSkip : List BuildStepL
deriving DecidableEq

/-- The staleness loop of `plan_build`: collect `(node, code, context)` for
every node in topological order whose code is not `UP_TO_DATE`, in order. -/
def initOutdatedGo (fs : Fs) (state : StateMap) (cmdOf : String → Cmd) :
    List String → List (String × UpdateCode × String) →
    Except StepErr (List (String × UpdateCode × String))
  | [], acc => Except.ok acc
  | n :: rest, acc =>
    match isStepOutdated fs state (cmdOf n) with
    | Except.error e => Except.error e
    | Except.ok r =>
      initOutdatedGo fs state cmdOf rest
        (if r.1 ≠ UpdateCode.UP_TO_DATE then acc ++ [(n, r)] else acc)

/-- The partition loop of `plan_build`: walk the topological order, sending
members of `all_nodes_to_run` to `steps_to_run` (with their initial code, or
`STALE_TARGET` for pure descendants) and the rest to `steps_to_skip`. -/
def partitionSteps (cmdOf : String → Cmd)
    (io : List (String × UpdateCode × String)) (allToRun : List String) :
    List String → List BuildStepL × List BuildStepL
  | [] => ([], [])
  | n :: rest =>
    let pr := partitionSteps cmdOf io allToRun rest
    if n ∈ allToRun then
      let rc := (assocLookup io n).getD (UpdateCode.STALE_TARGET, "")
      (⟨n, cmdOf n, rc.1, rc.2⟩ :: pr.1, pr.2)
    else (pr.1, ⟨n, cmdOf n, UpdateCode.UP_TO_DATE, ""⟩ :: pr.2)

/-- `BuildPlanner.plan_build`, after `_generate_command_map_and_graph` has
produced the command map (`cmdOf`), the topological order of the execution
subgraph (`buildOrder`, from `nx.topological_sort`) and its descendants
relation (`descendants`, from `nx.descendants`). -/
def planBuild (fs : Fs) (state : StateMap) (cmdOf : String → Cmd)
    (buildOrder : List String) (descendants : String → List String) :
    Except StepErr BuildPlanL :=
  match initOutdatedGo fs state cmdOf buildOrder [] with
  | Except.error e => Except.error e
  | Except.ok io =>
    let ioKeys := io.map Prod.fst
    let allToRun := ioKeys ++ ioKeys.flatMap descendants
    let pr := partitionSteps cmdOf io allToRun buildOrder
    Except.ok ⟨pr.1, pr.2⟩

/-! ## The executor (`BuildExecutor`)

Subprocess behaviour is an oracle: for each step name, the spawn/stream
outcome and the mtime `os.path.getmtime` would report for the step's output
after success (`Option.none` models a missing output, whose `OSError` the
worker's `except` converts to a failure).  Display-only work (log lines,
truncation, the timing report) is not modelled. -/

/-- Outcome of spawning and waiting for one subprocess. -/
inductive ProcOutcome where
  | spawnExn : ProcOutcome
  | exitCode (c : Int) : ProcOutcome
deriving DecidableEq

/-- The subprocess oracle. -/
abbrev Env : Type := String → ProcOutcome × Option ℚ

/-- The value returned by `_run_single_command` (`elapsed_time` is
display-only and omitted). -/
inductive TaskResult where
  | executed (stepName outputPath : String) (hashes : Hashes) (mtime : ℚ) : TaskResult
  | failed (stepName : String) : TaskResult
deriving DecidableEq

/-- `BuildExecutor._run_single_command`: any exception (spawn failure, missing
output at `getmtime`) and any non-zero exit become `FAILED`; a zero exit with
a readable output mtime becomes `EXECUTED` carrying the step's hashes and the
fresh mtime. -/
def runSingleCommand (stepName : String) (cmd : Cmd) (proc : ProcOutcome)
    (mtimeRes : Option ℚ) : TaskResult :=
  match proc with
  | ProcOutcome.spawnExn => TaskResult.failed stepName
  | ProcOutcome.exitCode c =>
    if c ≠ 0 then TaskResult.failed stepName
    else
      match mtimeRes with
      | Option.none => TaskResult.failed stepName
      | some m => TaskResult.executed stepName cmd.output cmd.hashes m

/-- One status-callback invocation. -/
structure StatusEvent where
  kind : String
  current : Nat
  total : Nat
  state : String
deriving DecidableEq

/-- The state entry written for a successful step. -/
def stateEntry (h : Hashes) (m : ℚ) : PVal :=
  PVal.dict [("hashes", PVal.dict [("command", PVal.str h.command),
    ("inputs", PVal.str h.inputs), ("params", PVal.str h.params)]),
    ("mtime", PVal.float m)]

/-- The result-integration loop of `execute_plan`: in result order, successes
bump the finished counter, fire a `done` event and write the state entry;
failures fire an `error` event (with the current counter) and set the halt
flag.  Returns (counter, state, events, halt). -/
def processResults (total : Nat) :
    List TaskResult → Nat → StateMap → Nat × StateMap × List StatusEvent × Bool
  | [], fc, st => (fc, st, [], false)
  | TaskResult.executed _ out h m :: rest, fc, st =>
    let fc' := fc + 1
    let st' := setKey st (out, stateEntry h m)
    let pr := processResults total rest fc' st'
    (pr.1, pr.2.1, ⟨"step", fc', total, "done"⟩ :: pr.2.2.1, pr.2.2.2)
  | TaskResult.failed _ :: rest, fc, st =>
    let pr := processResults total rest fc st
    (pr.1, pr.2.1, ⟨"step", fc, total, "error"⟩ :: pr.2.2.1, true)

/-- Everything observable about one `execute_plan` call: the returned flag,
the in-memory state at return, each `save_state` payload, the status-callback
events, the dispatched task names in dispatch order, and the processed
results. -/
structure ExecResult where
  success : Bool
  finalState : StateMap
  saves : List StateMap
  events : List StatusEvent
  dispatched : List String
  results : List TaskResult
deriving DecidableEq

/-- The tasks of one generation that are in `steps_to_run`
(`tasks_this_generation`). -/
def genTasks (runMap : List (String × Cmd)) (gen : List String) :
    List (String × Cmd) :=
  gen.filterMap (fun n => (assocLookup runMap n).map (fun c => (n, c)))

/-- The generation loop of `execute_plan`: skip empty generations, dispatch
the rest to workers, integrate results; on failure persist and stop without
starting later generations; after the last generation persist and succeed. -/
def runGens (env : Env) (runMap : List (String × Cmd)) (total : Nat) :
    List (List String) → Nat → StateMap → List StatusEvent → List String →
    List TaskResult → ExecResult
  | [], _, st, evs, disp, res => ⟨true, st, [st], evs, disp, res⟩
  | gen :: rest, fc, st, evs, disp, res =>
    let tasks := genTasks runMap gen
    if tasks.isEmpty then runGens env runMap total rest fc st evs disp res
    else
      let results := tasks.map (fun p => runSingleCommand p.1 p.2 (env p.1).1 (env p.1).2)
      let pr := processResults total results fc st
      if pr.2.2.2 then
        ⟨false, pr.2.1, [pr.2.1], evs ++ pr.2.2.1, disp ++ tasks.map Prod.fst,
          res ++ results⟩
      else
        runGens env runMap total rest pr.1 pr.2.1 (evs ++ pr.2.2.1)
          (disp ++ tasks.map Prod.fst) (res ++ results)

/-- `BuildExecutor.execute_plan`.  `gens` is
`nx.topological_generations(plan.execution_graph)`; `initState` is the state
loaded at executor construction. -/
def executePlan (plan : BuildPlanL) (gens : List (List String))
    (initState : StateMap) (env : Env) : ExecResult :=
  let total := plan.stepsToRun.length
  let ev0 : List StatusEvent := [⟨"step", 0, total, "started"⟩]
  if plan.stepsToRun.isEmpty then
    ⟨true, initState, [], ev0 ++ [⟨"step", 0, 0, "done"⟩], [], []⟩
  else
    runGens env (plan.stepsToRun.map (fun st => (st.nodeName, st.command))) total
      gens 0 initState ev0 [] []

/-! ## The state manager (`BuildStateManager`)

`load_state` reads and JSON-decodes the state file; a missing file, an
`IOError` while reading, or a `json.JSONDecodeError` all yield the empty
mapping.  `save_state` JSON-encodes with two-space indentation; an `IOError`
while writing is re-raised.  The JSON codec is modelled by an executable
parser/printer pair (numeric exponents and surrogate escapes, which the
engine never writes, are outside the parsed subset). -/

/-- How an attempt to read the state file can go. -/
inductive FileAccess where
  | absent : FileAccess
  | unreadable : FileAccess
  | readable (content : String) : FileAccess

/-- Outcome of opening the state file for writing. -/
inductive WriteOutcome where
  | writeOk : WriteOutcome
  | writeErr (msg : String) : WriteOutcome

/-- The error `save_state` re-raises on write failure. -/
inductive StateWriteErr where
  | ioError (path msg : String) : StateWriteErr
deriving DecidableEq

/-- Skip JSON whitespace. -/
def jsonWsDrop (l : List Char) : List Char :=
  l.dropWhile (fun c => c = ' ' || c = '\t' || c = '\n' || c = '\r')

/-- Hex digit value (code points 48-57 are the digits, 97-102 lowercase
a-f, 65-70 uppercase A-F). -/
def hexVal (c : Char) : Option Nat :=
  let n := c.toNat
  if 48 ≤ n ∧ n ≤ 57 then some (n - 48)
  else if 97 ≤ n ∧ n ≤ 102 then some (n - 87)
  else if 65 ≤ n ∧ n ≤ 70 then some (n - 55)
  else Option.none

/-- JSON string body parser (after the opening quote): returns the decoded
characters and the text after the closing quote. -/
def jsonParseStrGo : Nat → List Char → Option (List Char × List Char)
  | 0, _ => Option.none
  | _ + 1, [] => Option.none
  | fuel + 1, c :: rest =>
    if c = '"' then some ([], rest)
    else if c = '\\' then
      match rest with
      | [] => Option.none
      | e :: rest' =>
        if e = 'u' then
          match rest' with
          | a :: b :: c2 :: d :: rest'' =>
            match hexVal a, hexVal b, hexVal c2, hexVal d with
            | some ha, some hb, some hc, some hd =>
              (jsonParseStrGo fuel rest'').map
                (fun pr => (Char.ofNat (ha * 4096 + hb * 256 + hc * 16 + hd) :: pr.1, pr.2))
            | _, _, _, _ => Option.none
          | _ => Option.none
        else
          let dec : Option Char :=
            if e = '"' then some '"'
            else if e = '\\' then some '\\'
            else if e = '/' then some '/'
            else if e = 'n' then some '\n'
            else if e = 't' then some '\t'
            else if e = 'r' then some '\r'
            else if e = 'b' then some (Char.ofNat 8)
            else if e = 'f' then some (Char.ofNat 12)
            else Option.none
          match dec with
          | Option.none => Option.none
          | some ch => (jsonParseStrGo fuel rest').map (fun pr => (ch :: pr.1, pr.2))
    else (jsonParseStrGo fuel rest).map (fun pr => (c :: pr.1, pr.2))

/-- JSON number parser (integer or decimal fraction). -/
def jsonParseNum (l : List Char) : Option (PVal × List Char) :=
  let sp := match l with | '-' :: t => (true, t) | _ => (false, l)
  let digits := sp.2.takeWhile Char.isDigit
  if digits.isEmpty then Option.none
  else
    let rest1 := sp.2.drop digits.length
    match rest1 with
    | '.' :: t =>
      let frac := t.takeWhile Char.isDigit
      if frac.isEmpty then Option.none
      else
        let q : ℚ := (digitsToNat (digits ++ frac) : ℚ) / ((10 : ℚ) ^ frac.length)
        some (PVal.float (if sp.1 then -q else q), t.drop frac.length)
    | _ =>
      let n : Int := (digitsToNat digits : Int)
      some (PVal.int (if sp.1 then -n else n), rest1)

mutual

/-- JSON value parser. -/
def jsonParseVal : Nat → List Char → Option (PVal × List Char)
  | 0, _ => Option.none
  | fuel + 1, l =>
    match jsonWsDrop l with
    | [] => Option.none
    | 'n' :: rest =>
      if ['u', 'l', 'l'].isPrefixOf rest then some (PVal.none, rest.drop 3) else Option.none
    | 't' :: rest =>
      if ['r', 'u', 'e'].isPrefixOf rest then some (PVal.bool true, rest.drop 3) else Option.none
    | 'f' :: rest =>
      if ['a', 'l', 's', 'e'].isPrefixOf rest then some (PVal.bool false, rest.drop 4)
      else Option.none
    | '"' :: rest =>
      (jsonParseStrGo (rest.length + 1) rest).map
        (fun pr => (PVal.str (String.mk pr.1), pr.2))
    | '[' :: rest =>
      (match jsonWsDrop rest with
       | ']' :: r => some (PVal.list [], r)
       | _ => (jsonParseArr fuel rest).map (fun pr => (PVal.list pr.1, pr.2)))
    | '\x7b' :: rest =>
      (match jsonWsDrop rest with
       | '\x7d' :: r => some (PVal.dict [], r)
       | _ => (jsonParseObj fuel rest).map (fun pr => (PVal.dict pr.1, pr.2)))
    | l' => jsonParseNum l'

/-- Array elements (after `[`, at least one element). -/
def jsonParseArr : Nat → List Char → Option (List PVal × List Char)
  | 0, _ => Option.none
  | fuel + 1, l =>
    match jsonParseVal fuel l with
    | Option.none => Option.none
    | some (v, rest) =>
      match jsonWsDrop rest with
      | ',' :: r => (jsonParseArr fuel r).map (fun pr => (v :: pr.1, pr.2))
      | ']' :: r => some ([v], r)
      | _ => Option.none

/-- Object members (after the opening brace, at least one member). -/
def jsonParseObj : Nat → List Char → Option (List (String × PVal) × List Char)
  | 0, _ => Option.none
  | fuel + 1, l =>
    match jsonWsDrop l with
    | '"' :: rest =>
      match jsonParseStrGo (rest.length + 1) rest with
      | Option.none => Option.none
      | some (k, rest1) =>
        match jsonWsDrop rest1 with
        | ':' :: rest2 =>
          match jsonParseVal fuel rest2 with
          | Option.none => Option.none
          | some (v, rest3) =>
            match jsonWsDrop rest3 with
            | ',' :: r =>
              (jsonParseObj fuel r).map (fun pr => ((String.mk k, v) :: pr.1, pr.2))
            | '\x7d' :: r => some ([(String.mk k, v)], r)
            | _ => Option.none
        | _ => Option.none
    | _ => Option.none

end

/-- Model of `json.load`: parse one value, require only whitespace after. -/
def jsonParse (s : String) : Option PVal :=
  match jsonParseVal (s.data.length * 4 + 16) s.data with
  | some (v, rest) => if jsonWsDrop rest = [] then some v else Option.none
  | Option.none => Option.none

/-- `BuildStateManager.load_state`: missing file, unreadable file and invalid
JSON all produce the empty mapping; valid JSON is returned as decoded. -/
def loadState (fa : FileAccess) : PVal :=
  match fa with
  | FileAccess.absent => PVal.dict []
  | FileAccess.unreadable => PVal.dict []
  | FileAccess.readable s =>
    match jsonParse s with
    | some v => v
    | Option.none => PVal.dict []

/-- Two-space indentation. -/
def indentStr (d : Nat) : String := String.mk (List.replicate (2 * d) ' ')

mutual

/-- Model of `json.dump(v, f, indent=2)` (insertion order, no key sorting). -/
def jsonIndDumps (depth : Nat) : PVal → String
  | PVal.none => "null"
  | PVal.bool b => if b then "true" else "false"
  | PVal.int n => toString n
  | PVal.float q => floatRepr q
  | PVal.str s => jsonQuote s
  | PVal.list [] => "[]"
  | PVal.list (x :: xs) =>
    "[\n" ++ ",\n".intercalate (jsonIndList depth (x :: xs)) ++ "\n" ++ indentStr depth ++ "]"
  | PVal.dict [] => obr ++ cbr
  | PVal.dict (kv :: kvs) =>
    obr ++ "\n" ++ ",\n".intercalate (jsonIndObj depth (kv :: kvs)) ++ "\n" ++
      indentStr depth ++ cbr
termination_by structural v => v

/-- Indented array elements. -/
def jsonIndList (depth : Nat) : List PVal → List String
  | [] => []
  | v :: t => (indentStr (depth + 1) ++ jsonIndDumps (depth + 1) v) :: jsonIndList depth t
termination_by structural l => l

/-- Indented object members. -/
def jsonIndObj (depth : Nat) : List (String × PVal) → List String
  | [] => []
  | (k, v) :: t =>
    (indentStr (depth + 1) ++ jsonQuote k ++ ": " ++ jsonIndDumps (depth + 1) v) ::
      jsonIndObj depth t
termination_by structural l => l

end

/-- `BuildStateManager.save_state`: on success the file content is the
pretty-printed JSON mapping; an `IOError` is wrapped and re-raised naming the
state file path. -/
def saveState (path : String) (state : StateMap) (w : WriteOutcome) :
    Except StateWriteErr String :=
  match w with
  | WriteOutcome.writeOk => Except.ok (jsonIndDumps 0 (PVal.dict state))
  | WriteOutcome.writeErr m => Except.error (StateWriteErr.ioError path m)

/-! ## Reference definitions for corrected claims -/

/-- The per-entry token list that the amended C4 claim describes: skip `null`;
for keys in `UNQUOTED_PARAMS` emit the flag and `str(value)` unquoted
regardless of the value's type; otherwise booleans emit the quoted flag alone
when true and nothing when false, lists emit one quoted flag/value pair per
element, scalars emit one quoted flag/value pair. -/
def specParamTokens (dash : String) (unq : List String) (k : String) (v : PVal) :
    List String :=
  match v with
  | PVal.none => []
  | w =>
    let flag := dash ++ k
    if k ∈ unq then [flag, pyStr w]
    else
      match w with
      | PVal.bool b => if b then [shlexQuote flag] else []
      | PVal.list items => items.flatMap (fun it => [shlexQuote flag, shlexQuote (pyStr it)])
      | x => [shlexQuote flag, shlexQuote (pyStr x)]

/-- The decision the amended C1 claim describes for the mtime phase: the
first input, in list order, that is missing or strictly newer than the
last-build mtime decides the code (`MISSING_INPUT` or `NEWER_INPUT`),
carrying that input's basename. -/
def firstInputIssue (fs : Fs) (lastM : ℚ) (files : List String) :
    Option (UpdateCode × String) :=
  files.findSome? (fun f =>
    match fs f with
    | Option.none => some (UpdateCode.MISSING_INPUT, basename f)
    | some m =>
      if lastM < m then some (UpdateCode.NEWER_INPUT, basename f) else Option.none)

/-- The staleness decision as the amended C1 claim orders it:
`MISSING_OUTPUT`, `NOT_TRACKED`, `COMMAND_CHANGED`, `INPUTS_CHANGED`,
`PARAMS_CHANGED` in that order, then the joint first-input-issue rule, else
`UP_TO_DATE`. -/
def orderedStalenessCheck (fs : Fs) (state : StateMap) (cmd : Cmd) :
    Except StepErr (UpdateCode × String) :=
  if (fs cmd.output).isNone then
    Except.ok (UpdateCode.MISSING_OUTPUT, basename cmd.output)
  else
    match assocLookup state cmd.output with
    | Option.none => Except.ok (UpdateCode.NOT_TRACKED, basename cmd.output)
    | some stored =>
      if pyFalsy stored then Except.ok (UpdateCode.NOT_TRACKED, basename cmd.output)
      else
        match stored with
        | PVal.dict entry =>
          match (assocLookup entry "hashes").getD (PVal.dict []) with
          | PVal.dict hs =>
            if assocLookup hs "command" ≠ some (PVal.str cmd.hashes.command) then
              Except.ok (UpdateCode.COMMAND_CHANGED, "")
            else if assocLookup hs "inputs" ≠ some (PVal.str cmd.hashes.inputs) then
              Except.ok (UpdateCode.INPUTS_CHANGED, "")
            else if assocLookup hs "params" ≠ some (PVal.str cmd.hashes.params) then
              Except.ok (UpdateCode.PARAMS_CHANGED, "")
            else
              match pvalToMtime (assocLookup entry "mtime") with
              | Except.error e => Except.error e
              | Except.ok lastM =>
                Except.ok ((firstInputIssue fs lastM cmd.inputFiles).getD
                  (UpdateCode.UP_TO_DATE, ""))
          | _ => Except.error StepErr.attrError
        | _ => Except.error StepErr.attrError

/-! ## Concrete scenarios used by counterexamples and witnesses -/

/-- A state entry whose three hashes are `h1 h2 h3` and whose mtime is `m`. -/
def mkEntry (h1 h2 h3 : String) (m : ℚ) : PVal :=
  PVal.dict [("hashes", PVal.dict [("command", PVal.str h1), ("inputs", PVal.str h2),
    ("params", PVal.str h3)]), ("mtime", PVal.float m)]

/-- C1 scenario: tracked output, matching hashes, first input newer, second
input missing. -/
def c1Cmd : Cmd :=
  ⟨"cmd", ["in/newer.txt", "in/missing.txt"], "out/a", ⟨"h1", "h2", "h3"⟩⟩

def c1Fs : Fs := fun p =>
  if p = "out/a" then some 10 else if p = "in/newer.txt" then some 20 else Option.none

def c1State : StateMap := [("out/a", mkEntry "h1" "h2" "h3" 10)]

/-- C9 scenario: tracked output, matching hashes, entry lacking `mtime`,
first input missing, second input existing with positive mtime. -/
def c9Entry : List (String × PVal) :=
  [("hashes", PVal.dict [("command", PVal.str "h1"), ("inputs", PVal.str "h2"),
    ("params", PVal.str "h3")])]

def c9Cmd : Cmd :=
  ⟨"cmd", ["in/gone.txt", "in/fresh.txt"], "out/a", ⟨"h1", "h2", "h3"⟩⟩

def c9Fs : Fs := fun p =>
  if p = "out/a" then some 10 else if p = "in/fresh.txt" then some 5 else Option.none

def c9State : StateMap := [("out/a", PVal.dict c9Entry)]

/-! # Theorems -/

/-! ## C1: order of the staleness checks -/

theorem mtimeScan_eq_firstInputIssue (fs : Fs) (lastM : ℚ) :
    ∀ files : List String,
      (match mtimeScan fs lastM files with
       | Except.error m => Except.ok (UpdateCode.MISSING_INPUT, basename m)
       | Except.ok (some f) => Except.ok (UpdateCode.NEWER_INPUT, basename f)
       | Except.ok Option.none => Except.ok (UpdateCode.UP_TO_DATE, "")) =
      (Except.ok ((firstInputIssue fs lastM files).getD (UpdateCode.UP_TO_DATE, "")) :
        Except StepErr (UpdateCode × String))
  | [] => by simp [mtimeScan, firstInputIssue]
  | f :: rest => by
    simp only [mtimeScan, firstInputIssue, List.findSome?]
    cases hf : fs f with
    | none => rfl
    | some m =>
      by_cases hm : lastM < m
      · simp only [if_pos hm]
        rfl
      · simp only [if_neg hm]
        exact mtimeScan_eq_firstInputIssue fs lastM rest

/-- Claim C1 (corrected): the code does evaluate `MISSING_OUTPUT`,
`NOT_TRACKED`, `COMMAND_CHANGED`, `INPUTS_CHANGED`, `PARAMS_CHANGED` in the
listed order with the first trigger winning, but the `MISSING_INPUT` /
`NEWER_INPUT` phase is decided jointly by one scan of the inputs in list
order: the first input that is missing or strictly newer determines the
code.  `_is_step_outdated` equals this ordered decision procedure. -/
theorem claim_C1_amended (fs : Fs) (state : StateMap) (cmd : Cmd) :
    isStepOutdated fs state cmd = orderedStalenessCheck fs state cmd := by
  unfold isStepOutdated orderedStalenessCheck
  dsimp only
  repeat' split
  all_goals try rfl
  all_goals
    rename_i hscan
    rw [← mtimeScan_eq_firstInputIssue fs _ cmd.inputFiles, hscan]

/-- Claim C1 counterexample: with matching hashes, an existing first input
strictly newer than the stored mtime and a missing second input, the code
returns `NEWER_INPUT`, not `MISSING_INPUT` — the claim's priority of
`MISSING_INPUT` over `NEWER_INPUT` is false. -/
theorem claim_C1_counterexample :
    isStepOutdated c1Fs c1State c1Cmd = Except.ok (UpdateCode.NEWER_INPUT, "newer.txt") ∧
    c1Fs "in/missing.txt" = Option.none ∧
    "in/missing.txt" ∈ c1Cmd.inputFiles := by
  refine ⟨by decide, by decide, by decide⟩

/-! ## C4: parameter flag rendering -/

theorem emitParams_eq_spec (dash : String) (unq : List String) :
    ∀ params : List (String × PVal),
      emitParams dash unq params =
        params.flatMap (fun kv => specParamTokens dash unq kv.1 kv.2)
  | [] => rfl
  | (k, v) :: rest => by
    have ih := emitParams_eq_spec dash unq rest
    by_cases hk : k ∈ unq
    · cases v with
      | bool b => cases b <;> simp [emitParams, specParamTokens, hk, ih]
      | _ => simp [emitParams, specParamTokens, hk, ih]
    · cases v with
      | bool b => cases b <;> simp [emitParams, specParamTokens, hk, ih]
      | _ => simp [emitParams, specParamTokens, hk, ih]

/-- Claim C4 (corrected): flags are emitted per `(key, value)` in insertion
order with `null` skipped, but a key in `UNQUOTED_PARAMS` bypasses the
per-type rules entirely: the flag and `str(value)` are emitted unquoted
whatever the type.  For other keys: `true` emits the quoted flag alone,
`false` nothing, a list one quoted flag/value pair per element, a scalar one
quoted flag/value pair. -/
theorem claim_C4_amended (params : List (String × PVal)) (dash : String)
    (unq : List String) :
    formatShellParams params dash unq =
      " ".intercalate (params.flatMap (fun kv => specParamTokens dash unq kv.1 kv.2)) := by
  unfold formatShellParams
  rw [emitParams_eq_spec]

/-- Claim C4 counterexample: for a key in `UNQUOTED_PARAMS` with boolean
value `true`, the claim's per-type rule says the flag is emitted alone
(`-v`), but the code emits the flag and `str(True)`. -/
theorem claim_C4_counterexample :
    formatShellParams [("v", PVal.bool true)] "-" ["v"] = "-v True" ∧
    "-v True" ≠ "-v" := by
  refine ⟨by decide, by decide⟩

/-! ## C8: state manager error behaviour -/

/-- Claim C8 (confirmed): `load()` returns the empty mapping — raising
nothing — when the file is missing, unreadable, or not valid JSON;
`save(state)` writes the mapping as two-space-indented JSON, and a write
failure surfaces as an I/O error naming the state file. -/
theorem claim_C8 :
    loadState FileAccess.absent = PVal.dict [] ∧
    loadState FileAccess.unreadable = PVal.dict [] ∧
    (∀ s : String, jsonParse s = Option.none →
      loadState (FileAccess.readable s) = PVal.dict []) ∧
    (∀ (path : String) (st : StateMap),
      saveState path st WriteOutcome.writeOk =
        Except.ok (jsonIndDumps 0 (PVal.dict st))) ∧
    (∀ (path m : String) (st : StateMap),
      saveState path st (WriteOutcome.writeErr m) =
        Except.error (StateWriteErr.ioError path m)) := by
  refine ⟨rfl, rfl, ?_, fun _ _ => rfl, fun _ _ _ => rfl⟩
  intro s hs
  simp [loadState, hs]

theorem claim_C8_witness :
    loadState (FileAccess.readable "not json at all") = PVal.dict [] :=
  claim_C8.2.2.1 "not json at all" (by decide)

/-! ## C9: missing `mtime` field in a tracked entry -/

theorem mtimeScan_newer (fs : Fs) :
    ∀ files : List String, (∀ f ∈ files, (fs f).isSome) →
      (∃ f ∈ files, ∃ m : ℚ, fs f = some m ∧ 0 < m) →
      ∃ f ∈ files, (∃ m : ℚ, fs f = some m ∧ 0 < m) ∧
        mtimeScan fs 0 files = Except.ok (some f)
  | [], _, hpos => by
    rcases hpos with ⟨f, hf, _⟩
    exact absurd hf (List.not_mem_nil f)
  | f :: rest, hall, hpos => by
    rcases hof : fs f with _ | m
    · exact absurd (hall f (List.mem_cons_self f rest)) (by simp [hof])
    · by_cases hm : (0 : ℚ) < m
      · exact ⟨f, List.mem_cons_self f rest, ⟨m, hof, hm⟩, by simp [mtimeScan, hof, hm]⟩
      · have hall' : ∀ g ∈ rest, (fs g).isSome :=
          fun g hg => hall g (List.mem_cons_of_mem f hg)
        have hpos' : ∃ g ∈ rest, ∃ q : ℚ, fs g = some q ∧ 0 < q := by
          rcases hpos with ⟨g, hg, q, hq, hqpos⟩
          rcases List.mem_cons.1 hg with rfl | hg'
          · rw [hof] at hq
            cases hq
            exact absurd hqpos hm
          · exact ⟨g, hg', q, hq, hqpos⟩
        rcases mtimeScan_newer fs rest hall' hpos' with ⟨g, hg, hgpos, hgeq⟩
        exact ⟨g, List.mem_cons_of_mem f hg, hgpos, by simp [mtimeScan, hof, hm, hgeq]⟩

theorem mtimeScan_upToDate (fs : Fs) :
    ∀ files : List String,
      (mtimeScan fs 0 files = Except.ok Option.none ↔
        ∀ f ∈ files, ∃ m : ℚ, fs f = some m ∧ m ≤ 0)
  | [] => by simp [mtimeScan]
  | f :: rest => by
    rcases hof : fs f with _ | m
    · simp only [mtimeScan, hof]
      constructor
      · intro he
        exact absurd he (by simp)
      · intro hfa
        rcases hfa f (List.mem_cons_self f rest) with ⟨m, hm, _⟩
        rw [hof] at hm
        cases hm
    · by_cases hm : (0 : ℚ) < m
      · simp only [mtimeScan, hof, if_pos hm]
        constructor
        · intro he
          exact absurd he (by simp)
        · intro hfa
          rcases hfa f (List.mem_cons_self f rest) with ⟨q, hq, hqle⟩
          rw [hof] at hq
          cases hq
          exact absurd hm (by simpa using hqle)
      · simp only [mtimeScan, hof, if_neg hm]
        rw [mtimeScan_upToDate fs rest]
        constructor
        · intro hfa g hg
          rcases List.mem_cons.1 hg with rfl | hg'
          · exact ⟨m, hof, le_of_not_lt hm⟩
          · exact hfa g hg'
        · intro hfa g hg
          exact hfa g (List.mem_cons_of_mem f hg)

/-- Claim C9 (corrected): when a tracked entry for an existing output lacks
`mtime`, the last-build mtime defaults to `0`; with matching hashes, if
every resolved input exists then any input with positive mtime makes the
step `NEWER_INPUT` (named after the first such input), and the step is
`UP_TO_DATE` iff every input exists with mtime `≤ 0` — but a missing input
earlier in the list yields `MISSING_INPUT`, so the claim's unconditional
`NEWER_INPUT` conclusion is false as stated. -/
theorem claim_C9_amended (fs : Fs) (state : StateMap) (cmd : Cmd)
    (entry hs : List (String × PVal))
    (hout : (fs cmd.output).isNone = false)
    (hlook : assocLookup state cmd.output = some (PVal.dict entry))
    (hne : entry.isEmpty = false)
    (hhs : assocLookup entry "hashes" = some (PVal.dict hs))
    (hc : assocLookup hs "command" = some (PVal.str cmd.hashes.command))
    (hi : assocLookup hs "inputs" = some (PVal.str cmd.hashes.inputs))
    (hp : assocLookup hs "params" = some (PVal.str cmd.hashes.params))
    (hmt : assocLookup entry "mtime" = Option.none) :
    ((∀ f ∈ cmd.inputFiles, (fs f).isSome) →
      (∃ f ∈ cmd.inputFiles, ∃ m : ℚ, fs f = some m ∧ 0 < m) →
      ∃ f ∈ cmd.inputFiles, (∃ m : ℚ, fs f = some m ∧ 0 < m) ∧
        isStepOutdated fs state cmd = Except.ok (UpdateCode.NEWER_INPUT, basename f)) ∧
    (isStepOutdated fs state cmd = Except.ok (UpdateCode.UP_TO_DATE, "") ↔
      ∀ f ∈ cmd.inputFiles, ∃ m : ℚ, fs f = some m ∧ m ≤ 0) := by
  have hred : isStepOutdated fs state cmd =
      (match mtimeScan fs 0 cmd.inputFiles with
       | Except.error missing => Except.ok (UpdateCode.MISSING_INPUT, basename missing)
       | Except.ok (some newer) => Except.ok (UpdateCode.NEWER_INPUT, basename newer)
       | Except.ok Option.none => Except.ok (UpdateCode.UP_TO_DATE, "")) := by
    unfold isStepOutdated
    dsimp only
    rw [hout]
    simp only [Bool.false_eq_true, if_false]
    rw [hlook]
    dsimp only
    have hfalsy : pyFalsy (PVal.dict entry) = false := by
      simp [pyFalsy, hne]
    rw [hfalsy]
    simp only [Bool.false_eq_true, if_false]
    rw [hhs]
    simp only [Option.getD_some]
    rw [if_neg (by rw [hc]; simp), if_neg (by rw [hi]; simp), if_neg (by rw [hp]; simp)]
    rw [hmt]
    rfl
  constructor
  · intro hall hpos
    rcases mtimeScan_newer fs cmd.inputFiles hall hpos with ⟨f, hf, hfpos, hfeq⟩
    refine ⟨f, hf, hfpos, ?_⟩
    rw [hred, hfeq]
  · rw [hred, ← mtimeScan_upToDate fs cmd.inputFiles]
    cases hscan : mtimeScan fs 0 cmd.inputFiles with
    | error m => simp
    | ok r =>
      cases r with
      | none => simp
      | some f => simp

/-- Claim C9 counterexample: the entry lacks `mtime`, the hashes match, an
existing input has positive mtime — yet the result is `MISSING_INPUT`
(a missing input comes first in the list), not `NEWER_INPUT`. -/
theorem claim_C9_counterexample :
    isStepOutdated c9Fs c9State c9Cmd = Except.ok (UpdateCode.MISSING_INPUT, "gone.txt") ∧
    (∃ f ∈ c9Cmd.inputFiles, ∃ m : ℚ, c9Fs f = some m ∧ 0 < m) ∧
    assocLookup c9Entry "mtime" = Option.none := by
  refine ⟨by decide, ⟨"in/fresh.txt", by decide, 5, by decide, by decide⟩, by decide⟩

theorem claim_C9_witness :
    ∃ f ∈ c9Cmd.inputFiles,
      (∃ m : ℚ, (fun p => if p = "in/gone.txt" then some (0 : ℚ) else c9Fs p) f = some m ∧ 0 < m) ∧
      isStepOutdated (fun p => if p = "in/gone.txt" then some (0 : ℚ) else c9Fs p)
        c9State c9Cmd = Except.ok (UpdateCode.NEWER_INPUT, basename f) := by
  have h := (claim_C9_amended (fun p => if p = "in/gone.txt" then some (0 : ℚ) else c9Fs p)
    c9State c9Cmd c9Entry
    [("command", PVal.str "h1"), ("inputs", PVal.str "h2"), ("params", PVal.str "h3")]
    (by decide) (by decide) (by decide) (by decide) (by decide) (by decide) (by decide)
    (by decide)).1
  exact h (by decide) ⟨"in/fresh.txt", by decide, 5, by decide, by decide⟩

/-! ## C10: empty plan -/

/-- Claim C10 (confirmed): with no steps to run, `execute_plan` returns
`true`, never calls `save_state`, leaves the in-memory state untouched, and
the final status-callback event is `("step", 0, 0, "done")`. -/
theorem claim_C10 (plan : BuildPlanL) (gens : List (List String))
    (initState : StateMap) (env : Env) (h : plan.stepsToRun = []) :
    (executePlan plan gens initState env).success = true ∧
    (executePlan plan gens initState env).saves = [] ∧
    (executePlan plan gens initState env).finalState = initState ∧
    (executePlan plan gens initState env).events.getLast? =
      some ⟨"step", 0, 0, "done"⟩ := by
  unfold executePlan
  simp [h]

theorem claim_C10_witness :
    (executePlan ⟨[], []⟩ [["A"]] [("x", PVal.int 1)] (fun _ => (ProcOutcome.exitCode 0, some 1))).saves = [] :=
  (claim_C10 ⟨[], []⟩ [["A"]] [("x", PVal.int 1)]
    (fun _ => (ProcOutcome.exitCode 0, some 1)) rfl).2.1

/-! ## C5: strict-pass template safety -/

theorem identChar_ne (c d : Char) (h : (c.isAlpha || (c.isDigit || c = '_')) = true)
    (hd : (d.isAlpha || (d.isDigit || d = '_')) = false) : c ≠ d := by
  intro he
  subst he
  rw [h] at hd
  cases hd

theorem lower_not_digit (c : Char) (h : c.isLower = true) : c.isDigit = false := by
  unfold Char.isLower at h
  unfold Char.isDigit
  simp only [Bool.and_eq_true, decide_eq_true_eq] at h
  simp only [Bool.and_eq_false_iff, decide_eq_false_iff_not]
  right
  intro hc
  have h3 := UInt32.le_trans h.1 hc
  revert h3
  decide

theorem lower_not_upper (c : Char) (h : c.isLower = true) : c.isUpper = false := by
  unfold Char.isLower at h
  unfold Char.isUpper
  simp only [Bool.and_eq_true, decide_eq_true_eq] at h
  simp only [Bool.and_eq_false_iff, decide_eq_false_iff_not]
  right
  intro hc
  have h3 := UInt32.le_trans h.1 hc
  revert h3
  decide

theorem takeWhile_append_stop {p : Char → Bool} :
    ∀ (l : List Char) (x : Char) (r : List Char), (∀ c ∈ l, p c = true) → p x = false →
      (l ++ x :: r).takeWhile p = l ∧ (l ++ x :: r).dropWhile p = x :: r := by
  intro l
  induction l with
  | nil =>
    intro x r _ hx
    simp [List.takeWhile, List.dropWhile, hx]
  | cons c t ih =>
    intro x r hall hx
    have hc : p c = true := hall c (List.mem_cons_self c t)
    have iht := ih x r (fun d hd => hall d (List.mem_cons_of_mem c hd)) hx
    simp [List.takeWhile, List.dropWhile, hc, iht.1, iht.2]

/-- A safe `format_map` pass maps a braced lowercase-led identifier that is
not bound in the context to itself. -/
theorem fmtGo_lower_token (ctx : Ctx) (name : String) (fuel : Nat)
    (hid : ∀ ch ∈ name.data, (ch.isAlpha || (ch.isDigit || ch = '_')) = true)
    (hlow : ∃ c cs, name.data = c :: cs ∧ c.isLower = true)
    (hctx : assocLookup ctx name = Option.none) :
    fmtGo true ctx (fuel + 2) ('\x7b' :: name.data ++ ['\x7d']) =
      Except.ok ('\x7b' :: name.data ++ ['\x7d']) := by
  rcases hlow with ⟨c, cs, hdata, hlower⟩
  have hc : (c.isAlpha || (c.isDigit || c = '_')) = true := hid c (by rw [hdata]; simp)
  have hpred : ∀ d ∈ name.data, (!(d == '\x7d' || d == ':' || d == '!')) = true := by
    intro d hd
    have hd' := hid d hd
    have h1 : (d == '\x7d') = false := beq_eq_false_iff_ne.mpr (identChar_ne d '\x7d' hd' (by decide))
    have h2 : (d == ':') = false := beq_eq_false_iff_ne.mpr (identChar_ne d ':' hd' (by decide))
    have h3 : (d == '!') = false := beq_eq_false_iff_ne.mpr (identChar_ne d '!' hd' (by decide))
    rw [h1, h2, h3]
    rfl
  have hspan := takeWhile_append_stop name.data '\x7d' [] hpred (by decide)
  rw [hdata] at hspan ⊢
  have hhead : (c :: (cs ++ ['\x7d'])).head? ≠ some '\x7b' := by
    have : c ≠ '\x7b' := identChar_ne c '\x7b' hc (by decide)
    simp [this]
  show fmtGo true ctx (fuel + 2) ('\x7b' :: (c :: cs ++ ['\x7d'])) = _
  unfold fmtGo
  rw [if_pos rfl, if_neg (by simpa using hhead)]
  have hsp : (c :: cs ++ ['\x7d']).span (fun d => !(d == '\x7d' || d == ':' || d == '!')) =
      (c :: cs, ['\x7d']) := by
    rw [List.span_eq_take_drop]
    have h1 := hspan.1
    have h2 := hspan.2
    simp only [List.cons_append] at h1 h2 ⊢
    rw [h1, h2]
  rw [hsp]
  dsimp only
  rw [if_neg (by decide), if_neg (by decide)]
  have hfield : fmtField true ctx (c :: cs) = Except.ok ('\x7b' :: (c :: cs) ++ ['\x7d']) := by
    unfold fmtField
    rw [if_neg (by simp)]
    have hdig : c.isDigit = false := lower_not_digit c hlower
    rw [if_neg (by simp [hdig])]
    have hdot : ('.' ∈ c :: cs) = False := by
      simp only [eq_iff_iff, iff_false]
      intro hmem
      have := hid '.' (by rw [hdata]; simpa using hmem)
      revert this
      decide
    have hbr : ('[' ∈ c :: cs) = False := by
      simp only [eq_iff_iff, iff_false]
      intro hmem
      have := hid '[' (by rw [hdata]; simpa using hmem)
      revert this
      decide
    rw [if_neg (by
      simp only [List.contains_eq_any_beq, Bool.or_eq_true, List.any_eq_true]
      rintro (⟨x, hx, hbx⟩ | ⟨x, hx, hbx⟩)
      · rw [show x = '.' from (beq_iff_eq.1 hbx).symm] at hx
        exact hdot ▸ hx
      · rw [show x = '[' from (beq_iff_eq.1 hbx).symm] at hx
        exact hbr ▸ hx)]
    have hmk : String.mk (c :: cs) = name := by
      rw [← hdata]
    rw [hmk, hctx]
    rfl
  rw [hfield]
  rw [show (fmtGo true ctx (fuel + 1) [] : Except FmtErr (List Char)) = Except.ok [] from rfl]
  simp [Except.map]

/-- Every token the strict pass finds starts with an opening brace followed
by an uppercase letter. -/
theorem findUnresolvedGo_upper :
    ∀ (l : List Char) (tok : String), findUnresolvedGo l = some tok →
      ∃ c cs, tok.data = '\x7b' :: c :: cs ∧ c.isUpper = true := by
  intro l
  induction l with
  | nil => intro tok h; simp [findUnresolvedGo] at h
  | cons a rest ih =>
    intro tok h
    unfold findUnresolvedGo at h
    by_cases ha : a = '\x7b'
    · rw [if_pos ha] at h
      cases rest with
      | nil => simp at h
      | cons c cs =>
        dsimp only at h
        by_cases hc : c.isUpper
        · rw [if_pos hc] at h
          split at h
          · simp only [Option.some.injEq] at h
            exact ⟨c, cs.takeWhile isTokenChar ++ ['\x7d'], by rw [← h]; simp, hc⟩
          · exact ih tok h
        · rw [if_neg hc] at h
          exact ih tok h
    · rw [if_neg ha] at h
      exact ih tok h

/-- Claim C5 (corrected): (1) whenever the rendered command text still
contains an uppercase-led placeholder token, `_build_command_string` raises
the configuration error naming that token, the step and the command
template; (2) the strict pass can only ever name an uppercase-led token, so
a lowercase-led token never triggers it; (3) a braced lowercase identifier
not bound in the context passes through a safe expansion pass unchanged.
(The original claim's stronger "never rewritten" is false: a lowercase name
bound in the context, such as `profile_name`, is substituted.) -/
theorem claim_C5_amended :
    (∀ (node : String) (rule : RuleData) (inputs : List String) (output : String)
        (params : List (String × PVal)) (positional : List String) (ctx : Ctx)
        (cleaned tok : String),
      renderCommandText node rule inputs output params positional ctx = Except.ok cleaned →
      findUnresolved cleaned = some tok →
      buildCommandString node rule inputs output params positional ctx =
        Except.error (BErr.unresolvedToken tok node rule.command)) ∧
    (∀ (s tok : String), findUnresolved s = some tok →
      ∃ c cs, tok.data = '\x7b' :: c :: cs ∧ c.isUpper = true) ∧
    (∀ (ctx : Ctx) (name : String),
      (∀ ch ∈ name.data, (ch.isAlpha || (ch.isDigit || ch = '_')) = true) →
      (∃ c cs, name.data = c :: cs ∧ c.isLower = true) →
      assocLookup ctx name = Option.none →
      formatMap true ctx (obr ++ name ++ cbr) = Except.ok (obr ++ name ++ cbr)) := by
  refine ⟨?_, ?_, ?_⟩
  · intro node rule inputs output params positional ctx cleaned tok h1 h2
    unfold buildCommandString
    rw [h1]
    show (match findUnresolved cleaned with
      | some tok => Except.error (BErr.unresolvedToken tok node rule.command)
      | Option.none => _) = _
    rw [h2]
  · intro s tok h
    exact findUnresolvedGo_upper s.data tok h
  · intro ctx name hid hlow hctx
    unfold formatMap
    have hdata : (obr ++ name ++ cbr).data = '\x7b' :: name.data ++ ['\x7d'] := by
      simp [obr, cbr, String.data_append]
    rw [hdata]
    have hlen : ('\x7b' :: name.data ++ ['\x7d']).length = name.data.length + 2 := by
      simp
    rw [hlen]
    rw [show name.data.length + 2 + 1 = (name.data.length + 1) + 2 from rfl]
    rw [fmtGo_lower_token ctx name (name.data.length + 1) hid hlow hctx]
    show Except.ok (String.mk ('\x7b' :: name.data ++ ['\x7d'])) = _
    rw [show String.mk ('\x7b' :: name.data ++ ['\x7d']) = obr ++ name ++ cbr from by
      apply String.ext
      simpa using hdata.symm]

/-- C5 strict-pass scenario: a command template with a typo placeholder. -/
def c5Rule : RuleData := { name := "r", command := "echo {TYPO} > {OUTPUT}" }

theorem claim_C5_witness :
    buildCommandString "stepA" c5Rule [] "out.txt" [] [] [] =
      Except.error (BErr.unresolvedToken "{TYPO}" "stepA" "echo {TYPO} > {OUTPUT}") :=
  claim_C5_amended.1 "stepA" c5Rule [] "out.txt" [] [] [] "echo {TYPO} > out.txt" "{TYPO}"
    (by decide) (by decide)

/-- C5 lowercase scenario: the context binds `profile_name`. -/
def c5LowRule : RuleData := { name := "r", command := "echo {profile_name} {OUTPUT}" }

/-- Claim C5 counterexample: a lowercase-led braced token whose name is
bound in the expansion context (the always-present `profile_name`) is
rewritten by expansion, so "a lowercase-led braced token is never rewritten"
is false. -/
theorem claim_C5_counterexample :
    buildCommandString "stepA" c5LowRule [] "out.txt" [] []
        [("profile_name", PVal.str "dev")] = Except.ok "echo dev out.txt" ∧
    containsSub c5LowRule.command "{profile_name}" = true ∧
    containsSub "echo dev out.txt" "{profile_name}" = false := by
  refine ⟨by decide, by decide, by decide⟩

/-! ## C2: plan structure -/

/-- The staleness code `plan_build` computes for a node, as a total function
(`UP_TO_DATE` when `_is_step_outdated` raised, which the ok-hypotheses of
the lemmas below exclude). -/
def outdCodeOf (fs : Fs) (state : StateMap) (cmdOf : String → Cmd) (n : String) :
    UpdateCode × String :=
  ((isStepOutdated fs state (cmdOf n)).toOption).getD (UpdateCode.UP_TO_DATE, "")

/-- The `initially_outdated` association list, as a pure function. -/
def pureOutd (fs : Fs) (state : StateMap) (cmdOf : String → Cmd)
    (order : List String) : List (String × UpdateCode × String) :=
  order.filterMap (fun n =>
    let r := outdCodeOf fs state cmdOf n
    if r.1 ≠ UpdateCode.UP_TO_DATE then some (n, r) else Option.none)

theorem initOutdatedGo_ok (fs : Fs) (state : StateMap) (cmdOf : String → Cmd) :
    ∀ (order : List String) (acc io : List (String × UpdateCode × String)),
      initOutdatedGo fs state cmdOf order acc = Except.ok io →
      io = acc ++ pureOutd fs state cmdOf order := by
  intro order
  induction order with
  | nil =>
    intro acc io h
    simp only [initOutdatedGo, Except.ok.injEq] at h
    simp [pureOutd, ← h]
  | cons n rest ih =>
    intro acc io h
    simp only [initOutdatedGo] at h
    cases hstep : isStepOutdated fs state (cmdOf n) with
    | error e => rw [hstep] at h; cases h
    | ok r =>
      rw [hstep] at h
      have hrec := ih _ io h
      have hf : pureOutd fs state cmdOf (n :: rest) =
          (if r.1 ≠ UpdateCode.UP_TO_DATE then [(n, r)] else []) ++
            pureOutd fs state cmdOf rest := by
        simp only [pureOutd, List.filterMap_cons, outdCodeOf, hstep, Except.toOption,
          Option.getD_some]
        by_cases hr : r.1 ≠ UpdateCode.UP_TO_DATE
        · rw [if_pos hr, if_pos hr]
          rfl
        · rw [if_neg hr, if_neg hr]
          rfl
      rw [hrec, hf]
      by_cases hr : r.1 ≠ UpdateCode.UP_TO_DATE
      · rw [if_pos hr, if_pos hr]
        simp
      · rw [if_neg hr, if_neg hr]
        simp

theorem partitionSteps_run_names (cmdOf : String → Cmd)
    (io : List (String × UpdateCode × String)) (allToRun : List String) :
    ∀ order : List String,
      (partitionSteps cmdOf io allToRun order).1.map (fun st => st.nodeName) =
        order.filter (fun n => decide (n ∈ allToRun)) := by
  intro order
  induction order with
  | nil => rfl
  | cons n rest ih =>
    by_cases hn : n ∈ allToRun
    · simp [partitionSteps, hn, ih]
    · simp [partitionSteps, hn, ih]

theorem partitionSteps_skip_names (cmdOf : String → Cmd)
    (io : List (String × UpdateCode × String)) (allToRun : List String) :
    ∀ order : List String,
      (partitionSteps cmdOf io allToRun order).2.map (fun st => st.nodeName) =
        order.filter (fun n => decide (n ∉ allToRun)) := by
  intro order
  induction order with
  | nil => rfl
  | cons n rest ih =>
    by_cases hn : n ∈ allToRun
    · simp [partitionSteps, hn, ih]
    · simp [partitionSteps, hn, ih]

theorem partitionSteps_run_mem (cmdOf : String → Cmd)
    (io : List (String × UpdateCode × String)) (allToRun : List String) :
    ∀ (order : List String) (st : BuildStepL),
      st ∈ (partitionSteps cmdOf io allToRun order).1 →
      st.nodeName ∈ order ∧ st.nodeName ∈ allToRun ∧
        (st.updateCode, st.context) =
          (assocLookup io st.nodeName).getD (UpdateCode.STALE_TARGET, "") := by
  intro order
  induction order with
  | nil => intro st h; simp [partitionSteps] at h
  | cons n rest ih =>
    intro st h
    by_cases hn : n ∈ allToRun
    · simp only [partitionSteps, if_pos hn, List.mem_cons] at h
      rcases h with rfl | h
      · exact ⟨List.mem_cons_self n rest, hn, by
          cases hlook : assocLookup io n <;> simp [hlook]⟩
      · have := ih st h
        exact ⟨List.mem_cons_of_mem n this.1, this.2.1, this.2.2⟩
    · simp only [partitionSteps, if_neg hn] at h
      have := ih st h
      exact ⟨List.mem_cons_of_mem n this.1, this.2.1, this.2.2⟩

theorem pureOutd_lookup (fs : Fs) (state : StateMap) (cmdOf : String → Cmd) :
    ∀ (order : List String), order.Nodup → ∀ n ∈ order,
      assocLookup (pureOutd fs state cmdOf order) n =
        (if (outdCodeOf fs state cmdOf n).1 ≠ UpdateCode.UP_TO_DATE
         then some (outdCodeOf fs state cmdOf n) else Option.none) := by
  intro order
  induction order with
  | nil => intro _ n hn; exact absurd hn (List.not_mem_nil n)
  | cons m rest ih =>
    intro hnd n hn
    have hnd1 := (List.nodup_cons.1 hnd).1
    have hnd2 := (List.nodup_cons.1 hnd).2
    rcases List.mem_cons.1 hn with rfl | hn'
    · by_cases hr : (outdCodeOf fs state cmdOf n).1 ≠ UpdateCode.UP_TO_DATE
      · simp only [pureOutd, List.filterMap_cons]
        simp only [if_pos hr]
        simp [assocLookup, hr]
      · simp only [pureOutd, List.filterMap_cons]
        simp only [if_neg hr, if_neg hr]
        rw [show (pureOutd fs state cmdOf rest) =
          List.filterMap _ rest from rfl] at *
        -- n is not a key of the rest (nodup)
        have : assocLookup (pureOutd fs state cmdOf rest) n = Option.none := by
          unfold assocLookup
          cases hfind : (pureOutd fs state cmdOf rest).find? (fun p => p.1 == n) with
          | none => rfl
          | some p =>
            exfalso
            have hp := List.find?_some hfind
            have hmem := List.mem_of_find?_eq_some hfind
            have : p.1 = n := by simpa using hp
            have hkey : p.1 ∈ rest := by
              rcases List.mem_filterMap.1 hmem with ⟨x, hx, hxe⟩
              by_cases hc : (outdCodeOf fs state cmdOf x).1 ≠ UpdateCode.UP_TO_DATE
              · simp only [if_pos hc, Option.some.injEq] at hxe
                rw [← hxe]
                exact hx
              · simp [if_neg hc] at hxe
            rw [this] at hkey
            exact hnd1 hkey
        exact this
    · by_cases hm : (outdCodeOf fs state cmdOf m).1 ≠ UpdateCode.UP_TO_DATE
      · simp only [pureOutd, List.filterMap_cons, if_pos hm]
        have hne : m ≠ n := fun he => hnd1 (he ▸ hn')
        unfold assocLookup
        simp only [List.find?_cons]
        rw [show ((m, outdCodeOf fs state cmdOf m).1 == n) = false from by
          simpa using hne]
        exact ih hnd2 n hn'
      · simp only [pureOutd, List.filterMap_cons, if_neg hm]
        exact ih hnd2 n hn'

theorem pureOutd_mem_keys (fs : Fs) (state : StateMap) (cmdOf : String → Cmd)
    (order : List String) (n : String) (hn : n ∈ order)
    (hcode : (outdCodeOf fs state cmdOf n).1 ≠ UpdateCode.UP_TO_DATE) :
    n ∈ (pureOutd fs state cmdOf order).map Prod.fst := by
  refine List.mem_map.2 ⟨(n, outdCodeOf fs state cmdOf n), ?_, rfl⟩
  refine List.mem_filterMap.2 ⟨n, hn, ?_⟩
  simp [hcode]

/-- Claim C2 (confirmed): for every plan produced by `plan_build` — given
the topological order of the execution subgraph (duplicate-free) and a
descendants relation into it — (1) every node with a non-`UP_TO_DATE`
staleness code is in `steps_to_run` together with all of its descendants;
(2) every step in `steps_to_run` whose own staleness code is `UP_TO_DATE`
carries `STALE_TARGET`; (3) `steps_to_run` and `steps_to_skip` partition the
topological order, each preserving it. -/
theorem claim_C2 (fs : Fs) (state : StateMap) (cmdOf : String → Cmd)
    (order : List String) (descendants : String → List String) (plan : BuildPlanL)
    (hnd : order.Nodup)
    (hdesc : ∀ n ∈ order, ∀ d ∈ descendants n, d ∈ order)
    (hp : planBuild fs state cmdOf order descendants = Except.ok plan) :
    ((∀ n ∈ order, ∀ code ctxt, isStepOutdated fs state (cmdOf n) = Except.ok (code, ctxt) →
      code ≠ UpdateCode.UP_TO_DATE →
      n ∈ plan.stepsToRun.map (fun st => st.nodeName) ∧
      ∀ d ∈ descendants n, d ∈ plan.stepsToRun.map (fun st => st.nodeName)) ∧
    (∀ st ∈ plan.stepsToRun, ∀ ctxt,
      isStepOutdated fs state (cmdOf st.nodeName) =
        Except.ok (UpdateCode.UP_TO_DATE, ctxt) →
      st.updateCode = UpdateCode.STALE_TARGET) ∧
    ((plan.stepsToRun.map (fun st => st.nodeName)).Sublist order ∧
     (plan.stepsToSkip.map (fun st => st.nodeName)).Sublist order ∧
     (∀ n, n ∈ order ↔ (n ∈ plan.stepsToRun.map (fun st => st.nodeName) ∨
        n ∈ plan.stepsToSkip.map (fun st => st.nodeName))) ∧
     (∀ n, ¬(n ∈ plan.stepsToRun.map (fun st => st.nodeName) ∧
        n ∈ plan.stepsToSkip.map (fun st => st.nodeName))))) := by
  -- unpack the plan
  unfold planBuild at hp
  cases hio : initOutdatedGo fs state cmdOf order [] with
  | error e => rw [hio] at hp; cases hp
  | ok io =>
    rw [hio] at hp
    simp only [Except.ok.injEq] at hp
    have hioeq : io = pureOutd fs state cmdOf order := by
      simpa using initOutdatedGo_ok fs state cmdOf order [] io hio
    subst hioeq
    set io := pureOutd fs state cmdOf order with hiodef
    set allToRun := io.map Prod.fst ++ (io.map Prod.fst).flatMap descendants
      with hatr
    have hrun : plan.stepsToRun = (partitionSteps cmdOf io allToRun order).1 := by
      rw [← hp]
    have hskip : plan.stepsToSkip = (partitionSteps cmdOf io allToRun order).2 := by
      rw [← hp]
    have hrunnames := partitionSteps_run_names cmdOf io allToRun order
    have hskipnames := partitionSteps_skip_names cmdOf io allToRun order
    refine ⟨?_, ?_, ?_, ?_, ?_, ?_⟩
    · intro n hn code ctxt hstep hcode
      have hco : outdCodeOf fs state cmdOf n = (code, ctxt) := by
        simp [outdCodeOf, hstep, Except.toOption]
      have hkey : n ∈ io.map Prod.fst :=
        pureOutd_mem_keys fs state cmdOf order n hn (by rw [hco]; exact hcode)
      have hmem : n ∈ allToRun := by
        rw [hatr]
        exact List.mem_append_left _ hkey
      constructor
      · rw [hrun, hrunnames]
        exact List.mem_filter.2 ⟨hn, by simpa using hmem⟩
      · intro d hd
        have hdo : d ∈ order := hdesc n hn d hd
        have hdmem : d ∈ allToRun := by
          rw [hatr]
          exact List.mem_append_right _ (List.mem_flatMap.2 ⟨n, hkey, hd⟩)
        rw [hrun, hrunnames]
        exact List.mem_filter.2 ⟨hdo, by simpa using hdmem⟩
    · intro st hst ctxt hstep
      rw [hrun] at hst
      have hmem := partitionSteps_run_mem cmdOf io allToRun order st hst
      have hco : outdCodeOf fs state cmdOf st.nodeName = (UpdateCode.UP_TO_DATE, ctxt) := by
        simp [outdCodeOf, hstep, Except.toOption]
      have hlook : assocLookup io st.nodeName = Option.none := by
        rw [hiodef, pureOutd_lookup fs state cmdOf order hnd st.nodeName hmem.1]
        rw [hco]
        simp
      have := hmem.2.2
      rw [hlook] at this
      simpa using congrArg Prod.fst this
    · rw [hrun, hrunnames]
      exact List.filter_sublist order
    · rw [hskip, hskipnames]
      exact List.filter_sublist order
    · intro n
      rw [hrun, hskip, hrunnames, hskipnames]
      constructor
      · intro hn
        by_cases hmem : n ∈ allToRun
        · exact Or.inl (List.mem_filter.2 ⟨hn, by simpa using hmem⟩)
        · exact Or.inr (List.mem_filter.2 ⟨hn, by simpa using hmem⟩)
      · intro h
        rcases h with h | h
        · exact (List.mem_filter.1 h).1
        · exact (List.mem_filter.1 h).1
    · intro n h
      rw [hrun, hskip, hrunnames, hskipnames] at h
      have h1 := (List.mem_filter.1 h.1).2
      have h2 := (List.mem_filter.1 h.2).2
      simp at h1 h2
      exact h2 h1

/-- C2 scenario: `A → B`; A's output exists but is untracked, B is
up to date on its own. -/
def c2CmdOf : String → Cmd := fun n =>
  if n = "A" then ⟨"build A", [], "out/a", ⟨"ha1", "ha2", "ha3"⟩⟩
  else ⟨"build B", ["out/a"], "out/b", ⟨"hb1", "hb2", "hb3"⟩⟩

def c2Fs : Fs := fun p =>
  if p = "out/a" then some 5 else if p = "out/b" then some 10 else Option.none

def c2State : StateMap := [("out/b", mkEntry "hb1" "hb2" "hb3" 10)]

def c2Desc : String → List String := fun n => if n = "A" then ["B"] else []

def c2Plan : BuildPlanL :=
  ⟨[⟨"A", c2CmdOf "A", UpdateCode.NOT_TRACKED, "a"⟩,
    ⟨"B", c2CmdOf "B", UpdateCode.STALE_TARGET, ""⟩], []⟩

theorem claim_C2_witness :
    "B" ∈ c2Plan.stepsToRun.map (fun st => st.nodeName) := by
  have h := claim_C2 c2Fs c2State c2CmdOf ["A", "B"] c2Desc c2Plan
    (by decide) (by decide) (by decide)
  exact (h.1 "A" (by decide) UpdateCode.NOT_TRACKED "a" (by decide) (by decide)).2
    "B" (by decide)

/-! ## C6: failure halts the build -/

/-- Is a task result `FAILED`? -/
def isFailedResult : TaskResult → Bool
  | TaskResult.failed _ => true
  | _ => false

/-- The worker results of one generation. -/
def genResults (env : Env) (runMap : List (String × Cmd)) (gen : List String) :
    List TaskResult :=
  (genTasks runMap gen).map (fun p => runSingleCommand p.1 p.2 (env p.1).1 (env p.1).2)

/-- Does some task of this generation fail? -/
def genFails (env : Env) (runMap : List (String × Cmd)) (gen : List String) : Bool :=
  (genResults env runMap gen).any isFailedResult

theorem processResults_halt (total : Nat) :
    ∀ (results : List TaskResult) (fc : Nat) (st : StateMap),
      (processResults total results fc st).2.2.2 = results.any isFailedResult := by
  intro results
  induction results with
  | nil => intro fc st; rfl
  | cons r rest ih =>
    intro fc st
    cases r with
    | executed n out h m => simp [processResults, isFailedResult, ih]
    | failed n => simp [processResults, isFailedResult]

theorem runGens_noFail (env : Env) (runMap : List (String × Cmd)) (total : Nat) :
    ∀ (gens : List (List String)) (fc : Nat) (st : StateMap)
      (evs : List StatusEvent) (disp : List String) (res : List TaskResult),
      (∀ g ∈ gens, genFails env runMap g = false) →
      (runGens env runMap total gens fc st evs disp res).success = true ∧
      (runGens env runMap total gens fc st evs disp res).saves =
        [(runGens env runMap total gens fc st evs disp res).finalState] := by
  intro gens
  induction gens with
  | nil => intro fc st evs disp res _; exact ⟨rfl, rfl⟩
  | cons g rest ih =>
    intro fc st evs disp res hall
    have hg : genFails env runMap g = false := hall g (List.mem_cons_self g rest)
    have hrest : ∀ g' ∈ rest, genFails env runMap g' = false :=
      fun g' hg' => hall g' (List.mem_cons_of_mem g hg')
    unfold runGens
    dsimp only
    by_cases hemp : (genTasks runMap g).isEmpty
    · rw [if_pos hemp]
      exact ih fc st evs disp res hrest
    · rw [if_neg hemp]
      have hhalt : (processResults total
          ((genTasks runMap g).map
            (fun p => runSingleCommand p.1 p.2 (env p.1).1 (env p.1).2)) fc st).2.2.2 =
          false := by
        rw [processResults_halt]
        exact hg
      rw [hhalt]
      simp only [Bool.false_eq_true, if_false]
      exact ih _ _ _ _ _ hrest

theorem runGens_fail (env : Env) (runMap : List (String × Cmd)) (total : Nat) :
    ∀ (pre : List (List String)) (g : List String) (post : List (List String))
      (fc : Nat) (st : StateMap) (evs : List StatusEvent) (disp : List String)
      (res : List TaskResult),
      (∀ g' ∈ pre, genFails env runMap g' = false) →
      genFails env runMap g = true →
      (runGens env runMap total (pre ++ g :: post) fc st evs disp res).success = false ∧
      (runGens env runMap total (pre ++ g :: post) fc st evs disp res).saves =
        [(runGens env runMap total (pre ++ g :: post) fc st evs disp res).finalState] ∧
      (runGens env runMap total (pre ++ g :: post) fc st evs disp res).dispatched =
        disp ++ (pre ++ [g]).flatMap (fun gen => (genTasks runMap gen).map Prod.fst) := by
  intro pre
  induction pre with
  | nil =>
    intro g post fc st evs disp res _ hfail
    have hne : (genTasks runMap g).isEmpty = false := by
      cases htasks : genTasks runMap g with
      | nil =>
        exfalso
        rw [genFails, genResults, htasks] at hfail
        simp at hfail
      | cons t ts => rfl
    simp only [List.nil_append]
    unfold runGens
    dsimp only
    rw [hne]
    simp only [Bool.false_eq_true, if_false]
    have hhalt : (processResults total
        ((genTasks runMap g).map
          (fun p => runSingleCommand p.1 p.2 (env p.1).1 (env p.1).2)) fc st).2.2.2 =
        true := by
      rw [processResults_halt]
      exact hfail
    rw [hhalt]
    simp only [if_true]
    refine ⟨by simp, by simp, ?_⟩
    simp [genTasks]
  | cons g' pre' ih =>
    intro g post fc st evs disp res hall hfail
    have hg' : genFails env runMap g' = false := hall g' (List.mem_cons_self g' pre')
    have hpre' : ∀ x ∈ pre', genFails env runMap x = false :=
      fun x hx => hall x (List.mem_cons_of_mem g' hx)
    simp only [List.cons_append]
    unfold runGens
    dsimp only
    by_cases hemp : (genTasks runMap g').isEmpty
    · rw [if_pos hemp]
      have := ih g post fc st evs disp res hpre' hfail
      refine ⟨this.1, this.2.1, ?_⟩
      rw [this.2.2]
      have : genTasks runMap g' = [] := List.isEmpty_iff.1 hemp
      simp [this]
    · rw [if_neg hemp]
      have hhalt : (processResults total
          ((genTasks runMap g').map
            (fun p => runSingleCommand p.1 p.2 (env p.1).1 (env p.1).2)) fc st).2.2.2 =
          false := by
        rw [processResults_halt]
        exact hg'
      rw [hhalt]
      simp only [Bool.false_eq_true, if_false]
      have := ih g post
        (processResults total
          ((genTasks runMap g').map
            (fun p => runSingleCommand p.1 p.2 (env p.1).1 (env p.1).2)) fc st).1
        (processResults total
          ((genTasks runMap g').map
            (fun p => runSingleCommand p.1 p.2 (env p.1).1 (env p.1).2)) fc st).2.1
        (evs ++ (processResults total
          ((genTasks runMap g').map
            (fun p => runSingleCommand p.1 p.2 (env p.1).1 (env p.1).2)) fc st).2.2.1)
        (disp ++ (genTasks runMap g').map Prod.fst)
        (res ++ (genTasks runMap g').map
          (fun p => runSingleCommand p.1 p.2 (env p.1).1 (env p.1).2))
        hpre' hfail
      refine ⟨this.1, this.2.1, ?_⟩
      rw [this.2.2]
      simp

/-- Claim C6 (corrected): (worker boundary) a non-zero exit, a spawn/stream
exception, and a missing output at `getmtime` are all converted to a
`FAILED` result; (halting) for a plan with at least one step to run, if no
generation fails the executor persists the final state once and returns
`true`; if some generation fails (all earlier ones clean), it persists the
state accumulated so far, returns `false`, and dispatches no task of any
later generation.  (An empty plan returns `true` without persisting, which
falsifies the unconditional claim.) -/
theorem claim_C6_amended :
    (∀ (s : String) (cmd : Cmd) (c : Int) (m : Option ℚ), c ≠ 0 →
      runSingleCommand s cmd (ProcOutcome.exitCode c) m = TaskResult.failed s) ∧
    (∀ (s : String) (cmd : Cmd) (m : Option ℚ),
      runSingleCommand s cmd ProcOutcome.spawnExn m = TaskResult.failed s) ∧
    (∀ (s : String) (cmd : Cmd) (c : Int),
      runSingleCommand s cmd (ProcOutcome.exitCode c) Option.none =
        TaskResult.failed s) ∧
    (∀ (plan : BuildPlanL) (gens : List (List String)) (initState : StateMap)
        (env : Env),
      plan.stepsToRun ≠ [] →
      ((∀ g ∈ gens,
          genFails env (plan.stepsToRun.map (fun st => (st.nodeName, st.command))) g =
            false) →
        (executePlan plan gens initState env).success = true ∧
        (executePlan plan gens initState env).saves =
          [(executePlan plan gens initState env).finalState]) ∧
      (∀ (pre : List (List String)) (g : List String) (post : List (List String)),
        gens = pre ++ g :: post →
        (∀ g' ∈ pre,
          genFails env (plan.stepsToRun.map (fun st => (st.nodeName, st.command))) g' =
            false) →
        genFails env (plan.stepsToRun.map (fun st => (st.nodeName, st.command))) g =
          true →
        (executePlan plan gens initState env).success = false ∧
        (executePlan plan gens initState env).saves =
          [(executePlan plan gens initState env).finalState] ∧
        (executePlan plan gens initState env).dispatched =
          (pre ++ [g]).flatMap (fun gen =>
            (genTasks (plan.stepsToRun.map (fun st => (st.nodeName, st.command))) gen).map
              Prod.fst))) := by
  refine ⟨?_, ?_, ?_, ?_⟩
  · intro s cmd c m hc
    simp [runSingleCommand, hc]
  · intro s cmd m
    rfl
  · intro s cmd c
    by_cases hc : c = 0
    · subst hc
      rfl
    · simp [runSingleCommand, hc]
  · intro plan gens initState env hne
    have hplanemp : plan.stepsToRun.isEmpty = false := by
      cases h : plan.stepsToRun with
      | nil => exact absurd h hne
      | cons a b => rfl
    constructor
    · intro hall
      unfold executePlan
      rw [hplanemp]
      simp only [Bool.false_eq_true, if_false]
      exact runGens_noFail env _ _ gens 0 initState _ [] [] hall
    · intro pre g post hsplit hpre hfail
      subst hsplit
      unfold executePlan
      rw [hplanemp]
      simp only [Bool.false_eq_true, if_false]
      have := runGens_fail env (plan.stepsToRun.map (fun st => (st.nodeName, st.command)))
        (plan.stepsToRun.length) pre g post 0 initState
        [⟨"step", 0, plan.stepsToRun.length, "started"⟩] [] [] hpre hfail
      exact ⟨this.1, this.2.1, by rw [this.2.2]; simp⟩

/-- Claim C6 counterexample: an empty plan completes every generation
(vacuously) without failure, yet the executor returns `true` without ever
persisting state. -/
theorem claim_C6_counterexample :
    (executePlan ⟨[], []⟩ [] [("old", PVal.int 1)]
      (fun _ => (ProcOutcome.exitCode 0, Option.none))).success = true ∧
    (executePlan ⟨[], []⟩ [] [("old", PVal.int 1)]
      (fun _ => (ProcOutcome.exitCode 0, Option.none))).saves = [] := by
  refine ⟨by decide, by decide⟩

/-- C6 scenario: two chained steps, the first one fails. -/
def c6Plan : BuildPlanL :=
  ⟨[⟨"A", ⟨"build A", [], "out/a", ⟨"h1", "h2", "h3"⟩⟩, UpdateCode.MISSING_OUTPUT, "a"⟩,
    ⟨"B", ⟨"build B", ["out/a"], "out/b", ⟨"h4", "h5", "h6"⟩⟩, UpdateCode.STALE_TARGET, ""⟩],
   []⟩

def c6Env : Env := fun n =>
  if n = "A" then (ProcOutcome.exitCode 1, Option.none) else (ProcOutcome.exitCode 0, some 7)

theorem claim_C6_witness :
    (executePlan c6Plan [["A"], ["B"]] [] c6Env).success = false ∧
    (executePlan c6Plan [["A"], ["B"]] [] c6Env).dispatched = ["A"] := by
  have h := ((claim_C6_amended.2.2.2 c6Plan [["A"], ["B"]] [] c6Env (by decide)).2
    [] ["A"] [["B"]] rfl (by decide) (by decide))
  refine ⟨h.1, ?_⟩
  rw [h.2.2]
  decide

/-! ## C7: the post-run state invariant -/

theorem assocLookup_cons {α : Type} (p : String × α) (t : List (String × α))
    (k : String) :
    assocLookup (p :: t) k = if p.1 = k then some p.2 else assocLookup t k := by
  by_cases h : p.1 = k
  · simp [assocLookup, List.find?_cons, h]
  · simp [assocLookup, List.find?_cons, h]

theorem assocLookup_setKey_self (k : String) (v : PVal) :
    ∀ d : List (String × PVal), assocLookup (setKey d (k, v)) k = some v := by
  intro d
  induction d with
  | nil => simp [setKey, assocLookup_cons]
  | cons p t ih =>
    obtain ⟨k', v'⟩ := p
    by_cases h : k' = k
    · subst h
      simp [setKey, assocLookup_cons]
    · simp [setKey, h, assocLookup_cons, ih]

theorem assocLookup_setKey_ne (k k' : String) (v : PVal) (hne : k' ≠ k) :
    ∀ d : List (String × PVal),
      assocLookup (setKey d (k, v)) k' = assocLookup d k' := by
  intro d
  induction d with
  | nil => simp [setKey, assocLookup_cons, assocLookup, Ne.symm hne]
  | cons p t ih =>
    obtain ⟨k'', v''⟩ := p
    by_cases h : k'' = k
    · subst h
      simp [setKey, assocLookup_cons, Ne.symm hne]
    · simp [setKey, h, assocLookup_cons, ih]

/-- The state update performed for one worker result. -/
def applyResult (st : StateMap) : TaskResult → StateMap
  | TaskResult.executed _ out h m => setKey st (out, stateEntry h m)
  | TaskResult.failed _ => st

/-- The cumulative state update of a result list, in result order. -/
def applyResults (st : StateMap) (rs : List TaskResult) : StateMap :=
  rs.foldl applyResult st

theorem processResults_state (total : Nat) :
    ∀ (rs : List TaskResult) (fc : Nat) (st : StateMap),
      (processResults total rs fc st).2.1 = applyResults st rs := by
  intro rs
  induction rs with
  | nil => intro fc st; rfl
  | cons r rest ih =>
    intro fc st
    cases r with
    | executed n out h m =>
      simp [processResults, applyResults, List.foldl_cons, applyResult, ih]
    | failed n =>
      simp [processResults, applyResults, List.foldl_cons, applyResult, ih]

/-- The output paths of the `EXECUTED` results, in result order. -/
def executedOutputs (rs : List TaskResult) : List String :=
  rs.filterMap (fun r => match r with
    | TaskResult.executed _ out _ _ => some out
    | TaskResult.failed _ => Option.none)

theorem executedOutputs_cons_executed (n o : String) (h : Hashes) (m : ℚ)
    (rest : List TaskResult) :
    executedOutputs (TaskResult.executed n o h m :: rest) =
      o :: executedOutputs rest := by
  simp [executedOutputs]

theorem executedOutputs_cons_failed (n : String) (rest : List TaskResult) :
    executedOutputs (TaskResult.failed n :: rest) = executedOutputs rest := by
  simp [executedOutputs]

theorem applyResults_lookup_of_not_mem (out : String) :
    ∀ (rs : List TaskResult) (st : StateMap), out ∉ executedOutputs rs →
      assocLookup (applyResults st rs) out = assocLookup st out := by
  intro rs
  induction rs with
  | nil => intro st _; rfl
  | cons r rest ih =>
    intro st hmem
    cases r with
    | executed n o h m =>
      rw [executedOutputs_cons_executed] at hmem
      have ho : out ≠ o := fun he => hmem (he ▸ List.mem_cons_self o _)
      have hrest : out ∉ executedOutputs rest :=
        fun hx => hmem (List.mem_cons_of_mem o hx)
      show assocLookup (applyResults (setKey st (o, stateEntry h m)) rest) out = _
      rw [ih _ hrest, assocLookup_setKey_ne o out (stateEntry h m) ho]
    | failed n =>
      rw [executedOutputs_cons_failed] at hmem
      exact ih st hmem

theorem applyResults_lookup :
    ∀ (rs : List TaskResult) (st : StateMap) (n out : String) (hs : Hashes)
      (m : ℚ), (executedOutputs rs).Nodup →
      TaskResult.executed n out hs m ∈ rs →
      assocLookup (applyResults st rs) out = some (stateEntry hs m) := by
  intro rs
  induction rs with
  | nil => intro st n out hs m _ hmem; cases hmem
  | cons r rest ih =>
    intro st n out hs m hnd hmem
    rcases List.mem_cons.1 hmem with he | hrest
    · subst he
      rw [executedOutputs_cons_executed] at hnd
      have hout : out ∉ executedOutputs rest := (List.nodup_cons.1 hnd).1
      show assocLookup (applyResults (setKey st (out, stateEntry hs m)) rest) out = _
      rw [applyResults_lookup_of_not_mem out rest _ hout]
      exact assocLookup_setKey_self out (stateEntry hs m) st
    · cases r with
      | executed n' o' h' m' =>
        rw [executedOutputs_cons_executed] at hnd
        exact ih (setKey st (o', stateEntry h' m')) n out hs m
          (List.nodup_cons.1 hnd).2 hrest
      | failed n' =>
        rw [executedOutputs_cons_failed] at hnd
        exact ih st n out hs m hnd hrest

theorem runGens_results (env : Env) (runMap : List (String × Cmd)) (total : Nat) :
    ∀ (gens : List (List String)) (fc : Nat) (st : StateMap)
      (evs : List StatusEvent) (disp : List String) (res : List TaskResult),
      ∃ nw : List TaskResult,
        (runGens env runMap total gens fc st evs disp res).results = res ++ nw ∧
        (runGens env runMap total gens fc st evs disp res).finalState =
          applyResults st nw := by
  intro gens
  induction gens with
  | nil => intro fc st evs disp res; exact ⟨[], by simp [runGens], rfl⟩
  | cons g rest ih =>
    intro fc st evs disp res
    unfold runGens
    dsimp only
    by_cases hemp : (genTasks runMap g).isEmpty
    · rw [if_pos hemp]
      exact ih fc st evs disp res
    · rw [if_neg hemp]
      by_cases hhalt : (processResults total ((genTasks runMap g).map
          (fun p => runSingleCommand p.1 p.2 (env p.1).1 (env p.1).2)) fc st).2.2.2 =
          true
      · rw [if_pos hhalt]
        refine ⟨(genTasks runMap g).map
          (fun p => runSingleCommand p.1 p.2 (env p.1).1 (env p.1).2), rfl, ?_⟩
        exact processResults_state total _ fc st
      · rw [if_neg hhalt]
        obtain ⟨nw, h1, h2⟩ := ih
          (processResults total ((genTasks runMap g).map
            (fun p => runSingleCommand p.1 p.2 (env p.1).1 (env p.1).2)) fc st).1
          (processResults total ((genTasks runMap g).map
            (fun p => runSingleCommand p.1 p.2 (env p.1).1 (env p.1).2)) fc st).2.1
          (evs ++ (processResults total ((genTasks runMap g).map
            (fun p => runSingleCommand p.1 p.2 (env p.1).1 (env p.1).2)) fc st).2.2.1)
          (disp ++ (genTasks runMap g).map Prod.fst)
          (res ++ (genTasks runMap g).map
            (fun p => runSingleCommand p.1 p.2 (env p.1).1 (env p.1).2))
        refine ⟨(genTasks runMap g).map
          (fun p => runSingleCommand p.1 p.2 (env p.1).1 (env p.1).2) ++ nw, ?_, ?_⟩
        · rw [h1, List.append_assoc]
        · rw [h2, processResults_state]
          simp [applyResults, List.foldl_append]

theorem runGens_saves (env : Env) (runMap : List (String × Cmd)) (total : Nat) :
    ∀ (gens : List (List String)) (fc : Nat) (st : StateMap)
      (evs : List StatusEvent) (disp : List String) (res : List TaskResult),
      (runGens env runMap total gens fc st evs disp res).saves =
        [(runGens env runMap total gens fc st evs disp res).finalState] := by
  intro gens
  induction gens with
  | nil => intro fc st evs disp res; rfl
  | cons g rest ih =>
    intro fc st evs disp res
    unfold runGens
    dsimp only
    by_cases hemp : (genTasks runMap g).isEmpty
    · rw [if_pos hemp]
      exact ih fc st evs disp res
    · rw [if_neg hemp]
      by_cases hhalt : (processResults total ((genTasks runMap g).map
          (fun p => runSingleCommand p.1 p.2 (env p.1).1 (env p.1).2)) fc st).2.2.2 =
          true
      · rw [if_pos hhalt]
      · rw [if_neg hhalt]
        exact ih _ _ _ _ _

/-- Claim C7 (corrected): after a run in which no two `EXECUTED` results share
a resolved output path, the in-memory state at return — and every state
payload the executor persisted — contains, for each step that completed
`EXECUTED`, an entry keyed by that step's output path whose hashes are the
step's plan-time hashes and whose mtime is the one read right after its
subprocess succeeded.  (When two executed steps share an output path the
later-processed result overwrites the earlier entry, so the unconditional
claim fails.) -/
theorem claim_C7_amended :
    ∀ (plan : BuildPlanL) (gens : List (List String)) (initState : StateMap)
      (env : Env) (n out : String) (hs : Hashes) (m : ℚ),
      (executedOutputs (executePlan plan gens initState env).results).Nodup →
      TaskResult.executed n out hs m ∈ (executePlan plan gens initState env).results →
      assocLookup (executePlan plan gens initState env).finalState out =
        some (stateEntry hs m) ∧
      ∀ sv ∈ (executePlan plan gens initState env).saves,
        assocLookup sv out = some (stateEntry hs m) := by
  intro plan gens initState env n out hs m hnd hmem
  cases hpe : plan.stepsToRun.isEmpty with
  | true =>
    exfalso
    unfold executePlan at hmem
    rw [hpe] at hmem
    simp at hmem
  | false =>
    have hexec : executePlan plan gens initState env =
        runGens env (plan.stepsToRun.map (fun st => (st.nodeName, st.command)))
          plan.stepsToRun.length gens 0 initState
          [⟨"step", 0, plan.stepsToRun.length, "started"⟩] [] [] := by
      unfold executePlan
      rw [hpe]
      simp
    obtain ⟨nw, h1, h2⟩ := runGens_results env
      (plan.stepsToRun.map (fun st => (st.nodeName, st.command)))
      plan.stepsToRun.length gens 0 initState
      [⟨"step", 0, plan.stepsToRun.length, "started"⟩] [] []
    rw [List.nil_append] at h1
    rw [hexec] at hnd hmem ⊢
    rw [h1] at hnd hmem
    have hlook : assocLookup (applyResults initState nw) out =
        some (stateEntry hs m) :=
      applyResults_lookup nw initState n out hs m hnd hmem
    refine ⟨by rw [h2]; exact hlook, ?_⟩
    intro sv hsv
    rw [runGens_saves] at hsv
    rw [List.mem_singleton] at hsv
    subst hsv
    rw [h2]
    exact hlook

/-- C7 counterexample scenario: two steps in one generation write the same
output path. -/
def c7Plan : BuildPlanL :=
  ⟨[⟨"A", ⟨"build A", [], "out/x", ⟨"a1", "a2", "a3"⟩⟩, UpdateCode.MISSING_OUTPUT, "a"⟩,
    ⟨"B", ⟨"build B", [], "out/x", ⟨"b1", "b2", "b3"⟩⟩, UpdateCode.MISSING_OUTPUT, "b"⟩],
   []⟩

def c7Env : Env := fun n =>
  (ProcOutcome.exitCode 0, if n = "A" then some 1 else some 2)

/-- Claim C7 counterexample: step A completed `EXECUTED` with mtime 1, but
the state entry at its output path holds step B's hashes and mtime. -/
theorem claim_C7_counterexample :
    TaskResult.executed "A" "out/x" ⟨"a1", "a2", "a3"⟩ 1 ∈
      (executePlan c7Plan [["A", "B"]] [] c7Env).results ∧
    assocLookup (executePlan c7Plan [["A", "B"]] [] c7Env).finalState "out/x" ≠
      some (stateEntry ⟨"a1", "a2", "a3"⟩ 1) := by
  refine ⟨by decide, by decide⟩

/-- C7 witness scenario: the same two steps with distinct output paths. -/
def c7wPlan : BuildPlanL :=
  ⟨[⟨"A", ⟨"build A", [], "out/a", ⟨"a1", "a2", "a3"⟩⟩, UpdateCode.MISSING_OUTPUT, "a"⟩,
    ⟨"B", ⟨"build B", [], "out/b", ⟨"b1", "b2", "b3"⟩⟩, UpdateCode.MISSING_OUTPUT, "b"⟩],
   []⟩

theorem claim_C7_witness :
    assocLookup (executePlan c7wPlan [["A", "B"]] [] c7Env).finalState "out/a" =
      some (stateEntry ⟨"a1", "a2", "a3"⟩ 1) := by
  exact (claim_C7_amended c7wPlan [["A", "B"]] [] c7Env "A" "out/a"
    ⟨"a1", "a2", "a3"⟩ 1 (by decide) (by decide)).1

/-! ## C3: hash derivation and stability -/

theorem except_bind_ok {ε α β : Type} (a : α) (f : α → Except ε β) :
    ((Except.ok a : Except ε α) >>= f) = f a := rfl

theorem except_bind_err {ε α β : Type} (e : ε) (f : α → Except ε β) :
    ((Except.error e : Except ε α) >>= f) = Except.error e := rfl

/-- Inversion of a successful `generate_for_node` run: the three hashes are
computed from the raw command template, the sorted resolved inputs, and the
merged parameters. -/
theorem generateForNode_hashes (sha : String → String)
    (G P : List (String × PVal)) (node : String) (nd : NodeData) (ctx : Ctx)
    (ro : List (String × String)) (cmd : Cmd)
    (h : generateForNode sha G P node nd ctx ro = Except.ok cmd) :
    ∃ fp inputs,
      mergeParameters node G P nd.rule.name nd.parameters ctx = Except.ok fp ∧
      resolveAllInputs node nd ctx ro = Except.ok inputs ∧
      cmd.inputFiles = inputs ∧
      cmd.hashes.command = getHash sha (PVal.str nd.rule.command) ∧
      cmd.hashes.inputs = getHash sha (PVal.list ((sortStrs inputs).map PVal.str)) ∧
      cmd.hashes.params = getHash sha (PVal.dict fp) := by
  unfold generateForNode at h
  cases hlb : findLateBound nd.parameters with
  | some ph => rw [hlb] at h; exact Except.noConfusion h
  | none =>
    rw [hlb] at h
    try dsimp only at h
    cases hmp : mergeParameters node G P nd.rule.name nd.parameters ctx with
    | error e => rw [hmp, except_bind_err] at h; exact Except.noConfusion h
    | ok fp =>
      rw [hmp, except_bind_ok] at h
      cases hri : resolveAllInputs node nd ctx ro with
      | error e => rw [hri, except_bind_err] at h; exact Except.noConfusion h
      | ok inputs =>
        rw [hri, except_bind_ok] at h
        try dsimp only at h
        split at h
        · exact Except.noConfusion h
        · split at h
          · exact Except.noConfusion h
          · split at h
            · exact Except.noConfusion h
            · cases hout : deepTemplateStr node ctx nd.output with
              | error e => rw [hout, except_bind_err] at h; exact Except.noConfusion h
              | ok out =>
                rw [hout, except_bind_ok] at h
                try dsimp only at h
                cases hpos : deepStrList node (dictUpdate ctx
                    [("INPUTS", PVal.list (inputs.map PVal.str)),
                     ("OUTPUT", PVal.str out)]) nd.positionalFilenames.toList with
                | error e => rw [hpos, except_bind_err] at h; exact Except.noConfusion h
                | ok positional =>
                  rw [hpos, except_bind_ok] at h
                  cases hcs : buildCommandString node nd.rule inputs out fp
                      positional ctx with
                  | error e => rw [hcs, except_bind_err] at h; exact Except.noConfusion h
                  | ok cmdString =>
                    rw [hcs, except_bind_ok] at h
                    have hc := Except.ok.inj h
                    subst hc
                    exact ⟨fp, inputs, rfl, rfl, rfl, rfl, rfl, rfl⟩

/-- Totalized per-entry input resolution (the value on success). -/
def resolvedOf (node : String) (rl : List String) (ro : List (String × String))
    (ctx : Ctx) (t : String) : List String :=
  match resolveOneInput node rl ro ctx t with
  | Except.ok xs => xs
  | Except.error _ => []

theorem resolveInputsGo_ok_char (node : String) (rl : List String)
    (ro : List (String × String)) (ctx : Ctx) :
    ∀ (tmpls xs : List String),
      resolveInputsGo node rl ro ctx tmpls = Except.ok xs →
      xs = tmpls.flatMap (resolvedOf node rl ro ctx) ∧
      ∀ t ∈ tmpls, ∃ ys, resolveOneInput node rl ro ctx t = Except.ok ys := by
  intro tmpls
  induction tmpls with
  | nil =>
    intro xs h
    injection h with h'
    subst h'
    exact ⟨rfl, by simp⟩
  | cons t rest ih =>
    intro xs h
    unfold resolveInputsGo at h
    cases hone : resolveOneInput node rl ro ctx t with
    | error e => rw [hone] at h; exact Except.noConfusion h
    | ok ys =>
      rw [hone] at h
      dsimp only at h
      cases hrest : resolveInputsGo node rl ro ctx rest with
      | error e => rw [hrest] at h; exact Except.noConfusion h
      | ok zs =>
        rw [hrest] at h
        dsimp only at h
        obtain ⟨hzs, hall⟩ := ih zs hrest
        injection h with h'
        subst h'
        constructor
        · rw [List.flatMap_cons, hzs]
          have hys : resolvedOf node rl ro ctx t = ys := by
            unfold resolvedOf
            rw [hone]
          rw [hys]
        · intro t' ht'
          rcases List.mem_cons.1 ht' with he | hm
          · exact he ▸ ⟨ys, hone⟩
          · exact hall t' hm

/-- Totalized `_deep_template` of a single value (the value on success). -/
def deepValD (node : String) (ctx : Ctx) (v : PVal) : PVal :=
  match deepTemplateVal node ctx v with
  | Except.ok v' => v'
  | Except.error _ => v

theorem deepTemplateObjGo_ok_char (node : String) (ctx : Ctx) :
    ∀ (d r : List (String × PVal)),
      deepTemplateObjGo node ctx d = Except.ok r →
      r = d.map (fun kv => (kv.1, deepValD node ctx kv.2)) := by
  intro d
  induction d with
  | nil =>
    intro r h
    injection h with h'
    subst h'
    rfl
  | cons kv rest ih =>
    obtain ⟨k, v⟩ := kv
    intro r h
    unfold deepTemplateObjGo at h
    cases hv : deepTemplateVal node ctx v with
    | error e => rw [hv] at h; exact Except.noConfusion h
    | ok v' =>
      rw [hv] at h
      dsimp only at h
      cases ht : deepTemplateObjGo node ctx rest with
      | error e => rw [ht] at h; exact Except.noConfusion h
      | ok t' =>
        rw [ht] at h
        dsimp only at h
        injection h with h'
        subst h'
        rw [List.map_cons, ih t' ht]
        have hd : deepValD node ctx v = v' := by
          unfold deepValD
          rw [hv]
        rw [hd]

theorem setKey_keys_mem (p : String × PVal) :
    ∀ (d : List (String × PVal)) (x : String),
      x ∈ (setKey d p).map Prod.fst → x ∈ d.map Prod.fst ∨ x = p.1 := by
  intro d
  induction d with
  | nil =>
    intro x hx
    simp [setKey] at hx
    exact Or.inr hx
  | cons q t ih =>
    obtain ⟨k, v⟩ := q
    intro x hx
    by_cases hk : k = p.1
    · simp only [setKey, if_pos hk, List.map_cons, List.mem_cons] at hx
      rcases hx with h | h
      · exact Or.inl (List.mem_cons.2 (Or.inl h))
      · exact Or.inl (List.mem_cons.2 (Or.inr h))
    · simp only [setKey, if_neg hk, List.map_cons, List.mem_cons] at hx
      rcases hx with h | h
      · exact Or.inl (List.mem_cons.2 (Or.inl h))
      · rcases ih x h with h' | h'
        · exact Or.inl (List.mem_cons.2 (Or.inr h'))
        · exact Or.inr h'

theorem setKey_keys_nodup (p : String × PVal) :
    ∀ d : List (String × PVal), (d.map Prod.fst).Nodup →
      ((setKey d p).map Prod.fst).Nodup := by
  intro d
  induction d with
  | nil => intro _; simp [setKey]
  | cons q t ih =>
    obtain ⟨k, v⟩ := q
    intro hnd
    rw [List.map_cons, List.nodup_cons] at hnd
    by_cases hk : k = p.1
    · simp only [setKey, if_pos hk, List.map_cons, List.nodup_cons]
      exact hnd
    · simp only [setKey, if_neg hk, List.map_cons, List.nodup_cons]
      refine ⟨fun hmem => ?_, ih hnd.2⟩
      rcases setKey_keys_mem p t k hmem with h | h
      · exact hnd.1 h
      · exact hk h

theorem setKey_perm (p : String × PVal) :
    ∀ {d₁ d₂ : List (String × PVal)}, d₁.Perm d₂ → (d₁.map Prod.fst).Nodup →
      (setKey d₁ p).Perm (setKey d₂ p) := by
  intro d₁ d₂ hp
  induction hp with
  | nil => intro _; exact List.Perm.refl _
  | cons a hsub ih =>
    intro hnd
    obtain ⟨k, v⟩ := a
    rw [List.map_cons, List.nodup_cons] at hnd
    by_cases hk : k = p.1
    · simp only [setKey, if_pos hk]
      exact List.Perm.cons _ hsub
    · simp only [setKey, if_neg hk]
      exact List.Perm.cons _ (ih hnd.2)
  | swap x y l =>
    intro hnd
    obtain ⟨kx, vx⟩ := x
    obtain ⟨ky, vy⟩ := y
    rw [List.map_cons, List.map_cons, List.nodup_cons] at hnd
    have hkk : ky ≠ kx := fun he => hnd.1 (by simp [he])
    by_cases hky : ky = p.1
    · have hkx : ¬ kx = p.1 := fun he => hkk (by rw [hky, he])
      simp only [setKey, if_pos hky, if_neg hkx]
      exact List.Perm.swap _ _ _
    · by_cases hkx : kx = p.1
      · simp only [setKey, if_neg hky, if_pos hkx]
        exact List.Perm.swap _ _ _
      · simp only [setKey, if_neg hky, if_neg hkx]
        exact List.Perm.swap _ _ _
  | trans h₁ h₂ ih₁ ih₂ =>
    intro hnd
    exact (ih₁ hnd).trans (ih₂ (((h₁.map Prod.fst).nodup_iff).1 hnd))

theorem setKey_setKey_swap (p q : String × PVal) (hpq : p.1 ≠ q.1) :
    ∀ d : List (String × PVal),
      (setKey (setKey d p) q).Perm (setKey (setKey d q) p) := by
  intro d
  induction d with
  | nil =>
    simp only [setKey, if_neg hpq, if_neg (Ne.symm hpq)]
    exact List.Perm.swap _ _ _
  | cons a t ih =>
    obtain ⟨k, v⟩ := a
    by_cases hp : k = p.1
    · have hq : ¬ k = q.1 := fun he => hpq (by rw [← hp, he])
      simp only [setKey, if_pos hp, if_neg hq]
      exact List.Perm.refl _
    · by_cases hq : k = q.1
      · simp only [setKey, if_neg hp, if_pos hq]
        exact List.Perm.refl _
      · simp only [setKey, if_neg hp, if_neg hq]
        exact List.Perm.cons _ ih

theorem dictUpdate_keys_nodup :
    ∀ (l base : List (String × PVal)),
      (base.map Prod.fst).Nodup → ((dictUpdate base l).map Prod.fst).Nodup := by
  intro l
  induction l with
  | nil => intro base h; exact h
  | cons x t ih => intro base h; exact ih (setKey base x) (setKey_keys_nodup x base h)

theorem dictUpdate_perm_base :
    ∀ (l : List (String × PVal)) {b₁ b₂ : List (String × PVal)},
      b₁.Perm b₂ → (b₁.map Prod.fst).Nodup →
      (dictUpdate b₁ l).Perm (dictUpdate b₂ l) := by
  intro l
  induction l with
  | nil => intro b₁ b₂ hp _; exact hp
  | cons x t ih =>
    intro b₁ b₂ hp hnd
    exact ih (setKey_perm x hp hnd) (setKey_keys_nodup x b₁ hnd)

/-- `\x7b**base, **W\x7d` is permutation-invariant in the ordering of `W`'s
(duplicate-free) keys. -/
theorem dictUpdate_perm_arg :
    ∀ {W W' : List (String × PVal)}, W.Perm W' → (W.map Prod.fst).Nodup →
      ∀ base : List (String × PVal), (base.map Prod.fst).Nodup →
        (dictUpdate base W).Perm (dictUpdate base W') := by
  intro W W' hp
  induction hp with
  | nil => intro _ base _; exact List.Perm.refl _
  | cons x hsub ih =>
    intro hnd base hb
    rw [List.map_cons, List.nodup_cons] at hnd
    exact ih hnd.2 (setKey base x) (setKey_keys_nodup x base hb)
  | swap x y l =>
    intro hnd base hb
    rw [List.map_cons, List.map_cons, List.nodup_cons] at hnd
    have hyx : y.1 ≠ x.1 := fun he => hnd.1 (by simp [he])
    exact dictUpdate_perm_base l (setKey_setKey_swap y x hyx base)
      (setKey_keys_nodup x (setKey base y) (setKey_keys_nodup y base hb))
  | trans h₁ h₂ ih₁ ih₂ =>
    intro hnd base hb
    exact (ih₁ hnd base hb).trans
      (ih₂ (((h₁.map Prod.fst).nodup_iff).1 hnd) base hb)

/-- Claim C3: for every step whose generation succeeds, `hashes.command` is
computed from the raw `RULE.COMMAND` template, `hashes.inputs` from the
lexicographically sorted resolved input paths, and `hashes.params` from the
merged parameter mapping serialized with sorted keys; consequently reordering
the step-local `PARAMETERS` keys leaves `hashes.params` unchanged, and
reordering the `INPUTS` entries (which resolve entrywise to the same multiset
of paths) leaves `hashes.inputs` unchanged. -/
theorem claim_C3 (sha : String → String) (G P : List (String × PVal))
    (node : String) (nd : NodeData) (ctx : Ctx) (ro : List (String × String))
    (cmd : Cmd) (h : generateForNode sha G P node nd ctx ro = Except.ok cmd) :
    (∃ fp inputs,
      mergeParameters node G P nd.rule.name nd.parameters ctx = Except.ok fp ∧
      resolveAllInputs node nd ctx ro = Except.ok inputs ∧
      cmd.inputFiles = inputs ∧
      cmd.hashes.command = getHash sha (PVal.str nd.rule.command) ∧
      cmd.hashes.inputs = getHash sha (PVal.list ((sortStrs inputs).map PVal.str)) ∧
      cmd.hashes.params = getHash sha (PVal.dict fp)) ∧
    (∀ (params' : List (String × PVal)) (cmd' : Cmd),
      params'.Perm nd.parameters →
      (nd.parameters.map Prod.fst).Nodup →
      ((getRuleParams G nd.rule.name).map Prod.fst).Nodup →
      generateForNode sha G P node { nd with parameters := params' } ctx ro =
        Except.ok cmd' →
      cmd'.hashes.params = cmd.hashes.params) ∧
    (∀ (tmpls' : List String) (cmd' : Cmd),
      tmpls'.Perm nd.inputs.toList →
      generateForNode sha G P node { nd with inputs := StrOrList.many tmpls' }
        ctx ro = Except.ok cmd' →
      cmd'.hashes.inputs = cmd.hashes.inputs) := by
  obtain ⟨fp, inputs, hmp, hri, hif, hcH, hiH, hpH⟩ :=
    generateForNode_hashes sha G P node nd ctx ro cmd h
  refine ⟨⟨fp, inputs, hmp, hri, hif, hcH, hiH, hpH⟩, ?_, ?_⟩
  · intro params' cmd' hperm hndW hndG h'
    obtain ⟨fp₂, inputs₂, hmp₂, hri₂, hif₂, hcH₂, hiH₂, hpH₂⟩ :=
      generateForNode_hashes sha G P node _ ctx ro cmd' h'
    unfold mergeParameters at hmp hmp₂
    have hbase : ((dictUpdate (getRuleParams G nd.rule.name)
        (getRuleParams P nd.rule.name)).map Prod.fst).Nodup :=
      dictUpdate_keys_nodup _ _ hndG
    have hndW' : (params'.map Prod.fst).Nodup :=
      ((hperm.map Prod.fst).nodup_iff).2 hndW
    have hmerged : (dictUpdate (dictUpdate (getRuleParams G nd.rule.name)
          (getRuleParams P nd.rule.name)) params').Perm
        (dictUpdate (dictUpdate (getRuleParams G nd.rule.name)
          (getRuleParams P nd.rule.name)) nd.parameters) :=
      dictUpdate_perm_arg hperm hndW' _ hbase
    have hfp : fp = (dictUpdate (dictUpdate (getRuleParams G nd.rule.name)
        (getRuleParams P nd.rule.name)) nd.parameters).map
        (fun kv => (kv.1, deepValD node ctx kv.2)) :=
      deepTemplateObjGo_ok_char node ctx _ fp hmp
    have hfp₂ : fp₂ = (dictUpdate (dictUpdate (getRuleParams G nd.rule.name)
        (getRuleParams P nd.rule.name)) params').map
        (fun kv => (kv.1, deepValD node ctx kv.2)) :=
      deepTemplateObjGo_ok_char node ctx _ fp₂ hmp₂
    have hfpperm : fp₂.Perm fp := by
      rw [hfp, hfp₂]
      exact hmerged.map _
    have hkeys₂ : (fp₂.map Prod.fst).Nodup := by
      rw [hfp₂, List.map_map]
      have hcomp : (Prod.fst ∘ fun kv : String × PVal =>
          (kv.1, deepValD node ctx kv.2)) = Prod.fst := funext (fun kv => rfl)
      rw [hcomp]
      exact dictUpdate_keys_nodup params' _ hbase
    rw [hpH, hpH₂]
    unfold getHash
    rw [jsonDumps_dict_perm hfpperm hkeys₂]
  · intro tmpls' cmd' hperm h'
    obtain ⟨fp₂, inputs₂, hmp₂, hri₂, hif₂, hcH₂, hiH₂, hpH₂⟩ :=
      generateForNode_hashes sha G P node _ ctx ro cmd' h'
    unfold resolveAllInputs at hri hri₂
    obtain ⟨hxs, hall⟩ :=
      resolveInputsGo_ok_char node nd.requiresList ro ctx nd.inputs.toList inputs hri
    obtain ⟨hxs₂, hall₂⟩ :=
      resolveInputsGo_ok_char node nd.requiresList ro ctx tmpls' inputs₂ hri₂
    have hip : inputs₂.Perm inputs := by
      rw [hxs, hxs₂]
      exact List.Perm.flatMap_right _ hperm
    rw [hiH, hiH₂, sortStrs_eq_of_perm hip]

/-- C3 scenario: identity digest, a two-input two-parameter `cp` step. -/
def c3sha : String → String := fun s => s

def c3nd : NodeData :=
  { rule := { name := "cp", command := "cp {INPUTS} {OUTPUT} {PARAMETERS}" }
    output := "out.txt"
    inputs := StrOrList.many ["b.txt", "a.txt"]
    parameters := [("x", PVal.int 1), ("y", PVal.int 2)] }

def c3hashes : Hashes :=
  ⟨"\"cp {INPUTS} {OUTPUT} {PARAMETERS}\"", "[\"a.txt\", \"b.txt\"]",
   "\x7b\"x\": 1, \"y\": 2\x7d"⟩

def c3cmdA : Cmd :=
  ⟨"cp b.txt a.txt out.txt -x 1 -y 2", ["b.txt", "a.txt"], "out.txt", c3hashes⟩

def c3cmdB : Cmd :=
  ⟨"cp a.txt b.txt out.txt -x 1 -y 2", ["a.txt", "b.txt"], "out.txt", c3hashes⟩

def c3cmdC : Cmd :=
  ⟨"cp b.txt a.txt out.txt -y 2 -x 1", ["b.txt", "a.txt"], "out.txt", c3hashes⟩

theorem claim_C3_witness :
    c3cmdC.hashes.params = c3cmdA.hashes.params ∧
    c3cmdB.hashes.inputs = c3cmdA.hashes.inputs ∧
    c3cmdA.hashes.command = getHash c3sha (PVal.str c3nd.rule.command) := by
  have h := claim_C3 c3sha [] [] "S" c3nd [] [] c3cmdA (by decide)
  refine ⟨h.2.1 [("y", PVal.int 2), ("x", PVal.int 1)] c3cmdC (by decide) (by decide)
      (by decide) (by decide),
    h.2.2 ["a.txt", "b.txt"] c3cmdB (by decide) (by decide), ?_⟩
  obtain ⟨fp, inputs, hmp, hri, hif, hcH, hiH, hpH⟩ := h.1
  exact hcH

end LiteBuild
